import Mathlib

/-!
# go_proxy_every: routing, forward translation and HTML link rewriting

A shallow embedding of `proxy/reverse_proxy.go` and of the part of
`config/config.go` it calls, with the standard-library functions the proxy
relies on (`strings`, `net/url`, `regexp`, `net/http` headers).

A Go `string` is modelled as the list of its characters (`Str`), one `Char`
per UTF-8 sequence of the string, so every string of the model is valid text.
An index into a string counts characters and is only used to cut that same
string; the built-in `len` counts bytes (`len` below, one to four bytes a
character).  Percent-decoding in `net/url` writes bytes: what it returns is
read back as text (`piecesText`, the inverse of the UTF-8 encoding).
`net/url` follows the Go 1.21 sources.  Log lines are left out.
-/

namespace GoProxyEvery

/-- A Go string, as the sequence of its characters (so every string of the
model is valid text). -/
abbrev Str := List Char

/-! ## Built-in functions and package `unicode/utf8` -/

/-- Go `utf8.RuneLen`: the number of bytes of the UTF-8 encoding of a
character. -/
def RuneLen (c : Char) : Nat :=
  if c.toNat < 0x80 then 1
  else if c.toNat < 0x800 then 2
  else if c.toNat < 0x10000 then 3
  else 4

/-- Go's built-in `len` on a string: the number of its bytes. -/
def len (s : Str) : Nat := (s.map RuneLen).sum

/-- One element of a string that is built from characters and single bytes (as
`url.unescape` builds its result): a character (`Sum.inl`), which stands for
the bytes of its UTF-8 sequence, or a byte (`Sum.inr`). -/
abbrev Piece := Char ⊕ Nat

/-- Go `utf8.AppendRune` on a character: the bytes of its UTF-8 sequence. -/
def EncodeRune (c : Char) : List Nat :=
  if c.toNat < 0x80 then [c.toNat]
  else if c.toNat < 0x800 then [0xC0 + c.toNat / 0x40, 0x80 + c.toNat % 0x40]
  else if c.toNat < 0x10000 then
    [0xE0 + c.toNat / 0x1000, 0x80 + c.toNat / 0x40 % 0x40, 0x80 + c.toNat % 0x40]
  else
    [0xF0 + c.toNat / 0x40000, 0x80 + c.toNat / 0x1000 % 0x40, 0x80 + c.toNat / 0x40 % 0x40,
      0x80 + c.toNat % 0x40]

/-- The bytes of the string made of the given pieces. -/
def pieceBytes : List Piece → List Nat
  | [] => []
  | Sum.inl c :: r => EncodeRune c ++ pieceBytes r
  | Sum.inr b :: r => b :: pieceBytes r

/-- Go `utf8.RuneError`, the character U+FFFD. -/
def RuneError : Char := Char.ofNat 0xFFFD

/-- The length of the UTF-8 sequence that the byte `s0` starts (table
`utf8.first`): `1` for an ASCII byte, `0` for a byte that starts none. -/
def runeSize (s0 : Nat) : Nat :=
  if s0 < 0x80 then 1
  else if s0 < 0xC2 then 0
  else if s0 < 0xE0 then 2
  else if s0 < 0xF0 then 3
  else if s0 < 0xF5 then 4
  else 0

/-- The second bytes that may follow the first byte `s0` (table
`utf8.acceptRanges`). -/
def accept (s0 s1 : Nat) : Bool :=
  decide ((if s0 = 0xE0 then 0xA0 else if s0 = 0xF0 then 0x90 else 0x80) ≤ s1) &&
  decide (s1 ≤ (if s0 = 0xED then 0x9F else if s0 = 0xF4 then 0x8F else 0xBF))

/-- A continuation byte (`utf8.locb` to `utf8.hicb`). -/
def isCont (b : Nat) : Bool := decide (0x80 ≤ b) && decide (b ≤ 0xBF)

/-- Go `utf8.DecodeRuneInString` at the head of the pieces: the character and
the number of pieces it takes.  A copied character is a sequence of its own;
it starts with no continuation byte, so a sequence of bytes that one
interrupts is as invalid as one the end of the string interrupts. -/
def DecodeRune : List Piece → Char × Nat
  | [] => (RuneError, 0)
  | Sum.inl c :: _ => (c, 1)
  | Sum.inr s0 :: r =>
    if s0 < 0x80 then (Char.ofNat s0, 1)
    else if runeSize s0 = 0 then (RuneError, 1)
    else
      match r with
      | Sum.inr s1 :: r1 =>
        if !accept s0 s1 then (RuneError, 1)
        else if runeSize s0 ≤ 2 then (Char.ofNat (s0 % 0x20 * 0x40 + s1 % 0x40), 2)
        else
          match r1 with
          | Sum.inr s2 :: r2 =>
            if !isCont s2 then (RuneError, 1)
            else if runeSize s0 ≤ 3 then
              (Char.ofNat (s0 % 0x10 * 0x1000 + s1 % 0x40 * 0x40 + s2 % 0x40), 3)
            else
              match r2 with
              | Sum.inr s3 :: _ =>
                if !isCont s3 then (RuneError, 1)
                else
                  (Char.ofNat (s0 % 0x08 * 0x40000 + s1 % 0x40 * 0x1000 + s2 % 0x40 * 0x40 +
                    s3 % 0x40), 4)
              | _ => (RuneError, 1)
          | _ => (RuneError, 1)
      | _ => (RuneError, 1)

/-- The loop that reads pieces as text, one `DecodeRune` after the other; the
`Nat` is the number of pieces of the current sequence still to be skipped. -/
def piecesTextAux : List Piece → Nat → Str
  | [], _ => []
  | _ :: r, k + 1 => piecesTextAux r k
  | p :: r, 0 => (DecodeRune (p :: r)).1 :: piecesTextAux r ((DecodeRune (p :: r)).2 - 1)

/-- The text of the string made of the given pieces: its UTF-8 sequences, each
as one character.  A byte that belongs to no UTF-8 sequence has no character;
it is shown as `RuneError`, as in a Go `range` loop over the string. -/
def piecesText (l : List Piece) : Str := piecesTextAux l 0

/-! ## Package `strings` -/

/-- Go `strings.HasPrefix`. -/
def HasPrefix (s pre : Str) : Bool := pre.isPrefixOf s

/-- Go `strings.HasSuffix`. -/
def HasSuffix (s suf : Str) : Bool := suf.isSuffixOf s

/-- Go `strings.TrimPrefix`. -/
def TrimPrefix (s pre : Str) : Str :=
  if HasPrefix s pre then s.drop pre.length else s

/-- Go `strings.Index`; `none` stands for the result `-1`. -/
def Index : Str → Str → Option Nat
  | [], sub => if sub = [] then some 0 else none
  | c :: cs, sub =>
    if sub.isPrefixOf (c :: cs) then some 0 else (Index cs sub).map (· + 1)

/-- Go `strings.LastIndex`; `none` stands for the result `-1`. -/
def LastIndex : Str → Str → Option Nat
  | [], sub => if sub = [] then some 0 else none
  | c :: cs, sub =>
    match LastIndex cs sub with
    | some i => some (i + 1)
    | none => if sub.isPrefixOf (c :: cs) then some 0 else none

/-- Go `strings.Contains`. -/
def Contains (s sub : Str) : Bool := (Index s sub).isSome

/-- Go `strings.Cut`. -/
def Cut (s sep : Str) : Str × Str × Bool :=
  match Index s sep with
  | some i => (s.take i, s.drop (i + sep.length), true)
  | none => (s, [], false)

/-- Counting loop of `strings.Count` for a non-empty `sub`: the `Nat` is the
number of characters of the current occurrence still to be skipped. -/
def countAux (sub : Str) : Str → Nat → Nat
  | [], _ => 0
  | _ :: cs, k + 1 => countAux sub cs k
  | c :: cs, 0 =>
    if sub.isPrefixOf (c :: cs) then 1 + countAux sub cs (sub.length - 1)
    else countAux sub cs 0

/-- Go `strings.Count` (non-overlapping occurrences). -/
def Count (s sub : Str) : Nat :=
  if sub = [] then s.length + 1 else countAux sub s 0

/-- Replacement loop of `strings.Replace` for a non-empty `old`: `n` is the
number of replacements still allowed, the last argument the number of
characters of the occurrence just replaced still to be skipped. -/
def replaceAux (old new : Str) : Str → Nat → Nat → Str
  | [], _, _ => []
  | _ :: cs, n, k + 1 => replaceAux old new cs n k
  | c :: cs, 0, 0 => c :: cs
  | c :: cs, n + 1, 0 =>
    if old.isPrefixOf (c :: cs) then new ++ replaceAux old new cs n (old.length - 1)
    else c :: replaceAux old new cs (n + 1) 0

/-- The loop of `strings.Replace` for an empty `old`: `new` is inserted at the
start and after each character, `n` times at most. -/
def replaceEmpty (new : Str) : Str → Nat → Str
  | s, 0 => s
  | [], _ + 1 => new
  | c :: cs, n + 1 => new ++ c :: replaceEmpty new cs n

/-- Go `strings.Replace` for a count `n ≥ 0` (the program passes `1`). -/
def Replace (s old new : Str) (n : Nat) : Str :=
  if old = new ∨ n = 0 then s
  else if old = [] then replaceEmpty new s n
  else replaceAux old new s n 0

/-- Splitting loop of `strings.Split` for a non-empty `sep`; the last argument
is the current piece, reversed. -/
def splitAux (sep : Str) : Str → Nat → Str → List Str
  | [], _, cur => [cur.reverse]
  | _ :: cs, k + 1, cur => splitAux sep cs k cur
  | c :: cs, 0, cur =>
    if sep.isPrefixOf (c :: cs) then cur.reverse :: splitAux sep cs (sep.length - 1) []
    else splitAux sep cs 0 (c :: cur)

/-- Go `strings.Split`. -/
def Split (s sep : Str) : List Str :=
  if sep = [] then s.map (fun c => [c]) else splitAux sep s 0 []

/-- Go `unicode.IsSpace`. -/
def isSpace (c : Char) : Bool :=
  let n := c.toNat
  n = 0x09 || n = 0x0A || n = 0x0B || n = 0x0C || n = 0x0D || n = 0x20 ||
  n = 0x85 || n = 0xA0 || n = 0x1680 || (0x2000 ≤ n && n ≤ 0x200A) ||
  n = 0x2028 || n = 0x2029 || n = 0x202F || n = 0x205F || n = 0x3000

/-- Go `strings.TrimSpace`. -/
def TrimSpace (s : Str) : Str :=
  ((s.dropWhile isSpace).reverse.dropWhile isSpace).reverse

/-- Go `strings.ToLower` on the ASCII range (the characters a URL scheme can
hold); other characters are left as they are. -/
def ToLower (s : Str) : Str := s.map Char.toLower

/-! ## Package `net/url`: `Parse` -/

/-- The `*url.Userinfo` of a URL. -/
structure Userinfo where
  username : Str
  password : Str
  passwordSet : Bool
  deriving DecidableEq, Repr

/-- Go `url.URL`, without the `RawPath` and `RawFragment` encoding hints, which
the proxy never reads and which do not influence whether parsing succeeds. -/
structure URL where
  Scheme : Str := []
  Opaque : Str := []
  User : Option Userinfo := none
  Host : Str := []
  Path : Str := []
  OmitHost : Bool := false
  ForceQuery : Bool := false
  RawQuery : Str := []
  Fragment : Str := []
  deriving DecidableEq, Repr

/-- The escaping modes of `net/url`. -/
inductive encoding
  | encodePath
  | encodePathSegment
  | encodeHost
  | encodeZone
  | encodeUserPassword
  | encodeQueryComponent
  | encodeFragment
  deriving DecidableEq, Repr

open encoding

/-- ASCII letter test used by `net/url`. -/
def isAlpha (c : Char) : Bool :=
  (decide ('a' ≤ c) && decide (c ≤ 'z')) || (decide ('A' ≤ c) && decide (c ≤ 'Z'))

/-- ASCII digit test used by `net/url`. -/
def isDigit (c : Char) : Bool := decide ('0' ≤ c) && decide (c ≤ '9')

/-- Go `url.ishex`. -/
def ishex (c : Char) : Bool :=
  isDigit c || (decide ('a' ≤ c) && decide (c ≤ 'f')) || (decide ('A' ≤ c) && decide (c ≤ 'F'))

/-- Go `url.unhex`. -/
def unhex (c : Char) : Nat :=
  if isDigit c then c.toNat - '0'.toNat
  else if decide ('a' ≤ c) && decide (c ≤ 'f') then c.toNat - 'a'.toNat + 10
  else if decide ('A' ≤ c) && decide (c ≤ 'F') then c.toNat - 'A'.toNat + 10
  else 0

/-- Go `url.shouldEscape`. -/
def shouldEscape (c : Char) (mode : encoding) : Bool :=
  if isAlpha c || isDigit c then false
  else if (mode = encodeHost ∨ mode = encodeZone) ∧
      c ∈ ['!', '$', '&', '\'', '(', ')', '*', '+', ',', ';', '=', ':', '[', ']', '<', '>', '"'] then
    false
  else if c ∈ ['-', '_', '.', '~'] then false
  else if c ∈ ['$', '&', '+', ',', '/', ':', ';', '=', '?', '@'] ∧ mode = encodePath then
    c == '?'
  else if c ∈ ['$', '&', '+', ',', '/', ':', ';', '=', '?', '@'] ∧ mode = encodePathSegment then
    c == '/' || c == ';' || c == ',' || c == '?'
  else if c ∈ ['$', '&', '+', ',', '/', ':', ';', '=', '?', '@'] ∧ mode = encodeUserPassword then
    c == '@' || c == '/' || c == '?' || c == ':'
  else if c ∈ ['$', '&', '+', ',', '/', ':', ';', '=', '?', '@'] ∧ mode = encodeQueryComponent then
    true
  else if c ∈ ['$', '&', '+', ',', '/', ':', ';', '=', '?', '@'] ∧ mode = encodeFragment then
    false
  else if mode = encodeFragment ∧ c ∈ ['!', '(', ')', '*'] then false
  else true

/-- Go `url.unescape`, up to the bytes it writes: percent-decoding with the
per-mode validity checks; `none` stands for an `EscapeError` or
`InvalidHostError`. -/
def unescapePieces : Str → encoding → Option (List Piece)
  | [], _ => some []
  | c :: rest, mode =>
    if c = '%' then
      match rest with
      | a :: b :: rest2 =>
        if !ishex a || !ishex b then none
        else if mode = encodeHost ∧ unhex a < 8 ∧ ¬(a = '2' ∧ b = '5') then none
        else if mode = encodeZone ∧ ¬(a = '2' ∧ b = '5') ∧
            Char.ofNat (unhex a * 16 + unhex b) ≠ ' ' ∧
            shouldEscape (Char.ofNat (unhex a * 16 + unhex b)) encodeHost then none
        else (unescapePieces rest2 mode).map (Sum.inr (unhex a * 16 + unhex b) :: ·)
      | _ => none
    else if c = '+' then
      (unescapePieces rest mode).map
        (Sum.inl (if mode = encodeQueryComponent then ' ' else '+') :: ·)
    else if (mode = encodeHost ∨ mode = encodeZone) ∧ c.toNat < 0x80 ∧
        shouldEscape c encodeHost then none
    else (unescapePieces rest mode).map (Sum.inl c :: ·)

/-- Go `url.unescape`, with the string it returns read as text. -/
def unescape (s : Str) (mode : encoding) : Option Str :=
  (unescapePieces s mode).map piecesText

/-- Go `url.stringContainsCTLByte`. -/
def stringContainsCTLByte (s : Str) : Bool :=
  s.any (fun b => decide (b.toNat < 0x20) || decide (b.toNat = 0x7f))

/-- The loop of `url.getScheme`: `i` is the index of the head of the remaining
input within `rawURL`. -/
def getSchemeLoop (rawURL : Str) : Str → Nat → Option (Str × Str)
  | [], _ => some ([], rawURL)
  | c :: cs, i =>
    if isAlpha c then getSchemeLoop rawURL cs (i + 1)
    else if isDigit c || c == '+' || c == '-' || c == '.' then
      if i = 0 then some ([], rawURL) else getSchemeLoop rawURL cs (i + 1)
    else if c == ':' then
      if i = 0 then none else some (rawURL.take i, rawURL.drop (i + 1))
    else some ([], rawURL)

/-- Go `url.getScheme`: `(scheme, path)`, or `none` for "missing protocol
scheme". -/
def getScheme (rawURL : Str) : Option (Str × Str) := getSchemeLoop rawURL rawURL 0

/-- Go `url.validOptionalPort`. -/
def validOptionalPort (port : Str) : Bool :=
  match port with
  | [] => true
  | c :: ds => c == ':' && ds.all isDigit

/-- Go `url.validUserinfo`. -/
def validUserinfo (s : Str) : Bool :=
  s.all (fun r => isAlpha r || isDigit r ||
    decide (r ∈ ['-', '.', '_', ':', '~', '!', '$', '&', '\'', '(', ')', '*', '+', ',', ';', '=', '%', '@']))

/-- Go `url.parseHost`.  For a host with a zone the three parts are decoded one
by one and joined; the second starts with `%25` and the third with `]`, so no
UTF-8 sequence runs across a joint. -/
def parseHost (host : Str) : Option Str :=
  if HasPrefix host ['['] then
    match LastIndex host [']'] with
    | none => none
    | some i =>
      if !validOptionalPort (host.drop (i + 1)) then none
      else
        match Index (host.take i) ['%', '2', '5'] with
        | some zone =>
          match unescape (host.take zone) encodeHost with
          | none => none
          | some host1 =>
            match unescape ((host.take i).drop zone) encodeZone with
            | none => none
            | some host2 =>
              match unescape (host.drop i) encodeHost with
              | none => none
              | some host3 => some (host1 ++ host2 ++ host3)
        | none => unescape host encodeHost
  else
    match LastIndex host [':'] with
    | some i =>
      if !validOptionalPort (host.drop i) then none else unescape host encodeHost
    | none => unescape host encodeHost

/-- Go `url.parseAuthority`: `(user, host)`. -/
def parseAuthority (authority : Str) : Option (Option Userinfo × Str) :=
  let i := LastIndex authority ['@']
  let hostPart := match i with
    | none => authority
    | some i => authority.drop (i + 1)
  match parseHost hostPart with
  | none => none
  | some host =>
    match i with
    | none => some (none, host)
    | some i =>
      let userinfo := authority.take i
      if !validUserinfo userinfo then none
      else if !Contains userinfo [':'] then
        match unescape userinfo encodeUserPassword with
        | none => none
        | some u => some (some ⟨u, [], false⟩, host)
      else
        match unescape (Cut userinfo [':']).1 encodeUserPassword with
        | none => none
        | some username =>
          match unescape (Cut userinfo [':']).2.1 encodeUserPassword with
          | none => none
          | some password => some (some ⟨username, password, true⟩, host)

/-- Go `URL.setPath`, keeping the decoded path only. -/
def setPath (u : URL) (p : Str) : Option URL :=
  match unescape p encodePath with
  | none => none
  | some path => some { u with Path := path }

/-- Go `URL.setFragment`, keeping the decoded fragment only. -/
def setFragment (u : URL) (f : Str) : Option URL :=
  match unescape f encodeFragment with
  | none => none
  | some frag => some { u with Fragment := frag }

/-- Go `url.parse` (the unexported worker of `Parse` and `ParseRequestURI`). -/
def parse (rawURL : Str) (viaRequest : Bool) : Option URL :=
  if stringContainsCTLByte rawURL then none
  else if rawURL = [] ∧ viaRequest then none
  else if rawURL = ['*'] then some { Path := ['*'] }
  else
    match getScheme rawURL with
    | none => none
    | some (scheme0, rest0) =>
      let scheme := ToLower scheme0
      let forceQuery := HasSuffix rest0 ['?'] && Count rest0 ['?'] == 1
      let rest := if forceQuery then rest0.take (rest0.length - 1) else (Cut rest0 ['?']).1
      let rawQuery := if forceQuery then [] else (Cut rest0 ['?']).2.1
      let url : URL := { Scheme := scheme, ForceQuery := forceQuery, RawQuery := rawQuery }
      if !HasPrefix rest ['/'] ∧ scheme ≠ [] then some { url with Opaque := rest }
      else if !HasPrefix rest ['/'] ∧ viaRequest then none
      else if !HasPrefix rest ['/'] ∧ Contains (Cut rest ['/']).1 [':'] then none
      else if (scheme ≠ [] ∨ (!viaRequest ∧ !HasPrefix rest ['/', '/', '/'])) ∧
          HasPrefix rest ['/', '/'] then
        let authority0 := rest.drop 2
        let authority := match Index authority0 ['/'] with
          | some i => authority0.take i
          | none => authority0
        let rest2 := match Index authority0 ['/'] with
          | some i => authority0.drop i
          | none => []
        match parseAuthority authority with
        | none => none
        | some (user, host) => setPath { url with User := user, Host := host } rest2
      else if scheme ≠ [] ∧ HasPrefix rest ['/'] then setPath { url with OmitHost := true } rest
      else setPath url rest

/-- Go `url.Parse`; `none` stands for a non-nil error. -/
def urlParse (rawURL : Str) : Option URL :=
  match parse (Cut rawURL ['#']).1 false with
  | none => none
  | some url =>
    if (Cut rawURL ['#']).2.1 = [] then some url
    else setFragment url (Cut rawURL ['#']).2.1

/-! ## Package `regexp` -/

/-- The regular expressions the proxy compiles: literals, character classes,
concatenation, alternation, `?` and `*` (both greedy). -/
inductive Regex
  | lit (s : Str)
  | cls (cs : List Char)
  | ncls (cs : List Char)
  | cat (a b : Regex)
  | alt (a b : Regex)
  | quest (a : Regex)
  | star (a : Regex)
  deriving Repr

/-- Greedy iteration of a matcher `step`, at most `n` times; an iteration that
consumes nothing is not repeated. -/
def starLoop (step : Str → (Str → Option Str) → Option Str) :
    Nat → Str → (Str → Option Str) → Option Str
  | 0, s, k => k s
  | n + 1, s, k =>
    match step s (fun s2 => if s2.length < s.length then starLoop step n s2 k else none) with
    | some r => some r
    | none => k s

/-- Backtracking matcher anchored at the head of the input: `run re s k` tries
the ways `re` can match a front part of `s` in priority order (first
alternative first, greedy repetition) and answers with the first result the
continuation `k` accepts on the remaining input.  This is the leftmost-first
choice Go's `regexp` documents. -/
def Regex.run : Regex → Str → (Str → Option Str) → Option Str
  | .lit t, s, k => if t.isPrefixOf s then k (s.drop t.length) else none
  | .cls cs, s, k =>
    match s with
    | c :: s2 => if c ∈ cs then k s2 else none
    | [] => none
  | .ncls cs, s, k =>
    match s with
    | c :: s2 => if c ∈ cs then none else k s2
    | [] => none
  | .cat a b, s, k => Regex.run a s (fun s2 => Regex.run b s2 k)
  | .alt a b, s, k =>
    match Regex.run a s k with
    | some r => some r
    | none => Regex.run b s k
  | .quest a, s, k =>
    match Regex.run a s k with
    | some r => some r
    | none => k s
  | .star a, s, k => starLoop (Regex.run a) s.length s k

/-- Length of the match of `re` that starts at the head of `s`, if there is
one. -/
def Regex.matchLen (re : Regex) (s : Str) : Option Nat :=
  (re.run s some).map (fun rest => s.length - rest.length)

/-- The loop of `Regexp.replaceAll`, walking the source one character at a time.
The `Nat` is the number of characters of the current match still to be
skipped; the flag says that the previous match ended right here (an empty
match at such a place is not replaced). -/
def replaceAllLoop (re : Regex) (repl : Str → Str) : Str → Nat → Bool → Str
  | [], _, prevEnd =>
    match re.matchLen [] with
    | some _ => if prevEnd then [] else repl []
    | none => []
  | _ :: cs, k + 1, _ => replaceAllLoop re repl cs k true
  | c :: cs, 0, prevEnd =>
    match re.matchLen (c :: cs) with
    | some 0 => (if prevEnd then [] else repl []) ++ c :: replaceAllLoop re repl cs 0 false
    | some (n + 1) => repl ((c :: cs).take (n + 1)) ++ replaceAllLoop re repl cs n true
    | none => c :: replaceAllLoop re repl cs 0 false

/-- Go `Regexp.ReplaceAllStringFunc`: every leftmost, non-overlapping match of
`re` in `src` is replaced by `repl` of the matched text. -/
def ReplaceAllStringFunc (re : Regex) (src : Str) (repl : Str → Str) : Str :=
  replaceAllLoop re repl src 0 false

/-- The group `(href|src|action)`. -/
def attrNames : Regex :=
  .alt (.lit ['h', 'r', 'e', 'f']) (.alt (.lit ['s', 'r', 'c']) (.lit ['a', 'c', 't', 'i', 'o', 'n']))

/-- The class `["']`. -/
def quoteClass : Regex := .cls ['"', '\'']

/-- The group `(/[^"']*)?`. -/
def optPath : Regex := .quest (.cat (.lit ['/']) (.star (.ncls ['"', '\''])))

/-- The compiled ``(href|src|action)=["']%s(/[^"']*)?["']`` with
`regexp.QuoteMeta(target)` for `%s`: the quoted text matches `target`
literally. -/
def absolutePattern (target : Str) : Regex :=
  .cat attrNames (.cat (.lit ['=']) (.cat quoteClass (.cat (.lit target) (.cat optPath quoteClass))))

/-- The compiled ``(href|src|action)=["']//%s(/[^"']*)?["']`` with
`regexp.QuoteMeta(host)` for `%s`. -/
def protoRelativePattern (host : Str) : Regex :=
  .cat attrNames (.cat (.lit ['=']) (.cat quoteClass
    (.cat (.lit ['/', '/']) (.cat (.lit host) (.cat optPath quoteClass)))))

/-! ## Package `net/http`: headers, requests, responses -/

/-- Go `http.Header`, a map from canonical header names to value lists, as an
association list.  The names the proxy passes are canonical already. -/
abbrev Header := List (Str × List Str)

/-- Go `Header.Get`: the first value of the header, or the empty string. -/
def Header.Get (h : Header) (key : Str) : Str :=
  match h.lookup key with
  | some (v :: _) => v
  | _ => []

/-- Go `Header.Del`. -/
def Header.Del (h : Header) (key : Str) : Header :=
  h.filter (fun kv => kv.1 ≠ key)

/-- Go `Header.Set`: the header holds the single value `value` afterwards. -/
def Header.Set (h : Header) (key value : Str) : Header :=
  (key, [value]) :: Header.Del h key

/-- The fields of `http.Request` the proxy reads or writes. -/
structure Request where
  URL : URL
  Host : Str
  Header : Header
  RemoteAddr : Str
  deriving DecidableEq, Repr

/-- An `io.ReadCloser` body: the bytes reading it to the end yields, and whether
the read ends in an error. -/
structure Body where
  bytes : Str
  err : Bool
  deriving DecidableEq, Repr

/-- The fields of `http.Response` that `modifyResponse` reads or writes. -/
structure Response where
  Header : Header
  Body : Body
  ContentLength : Int
  deriving DecidableEq, Repr

/-! ## Package `config` -/

/-- Go `config.ProxyRule`; the two time stamps are kept as numbers. -/
structure ProxyRule where
  ID : Str
  Name : Str
  Path : Str
  Target : Str
  Enabled : Bool
  CreatedAt : Nat
  UpdatedAt : Nat
  deriving DecidableEq, Repr

/-- Go `config.Config`. -/
structure Config where
  Rules : List ProxyRule
  deriving DecidableEq, Repr

/-- Go `config.ConfigManager` (the mutex guards the fields and has no value of
its own). -/
structure ConfigManager where
  config : Config
  filePath : Str
  deriving DecidableEq, Repr

/-- Go `ConfigManager.GetEnabledRules`: the loop appends every enabled rule to
an initially empty slice. -/
def ConfigManager.GetEnabledRules (m : ConfigManager) : List ProxyRule :=
  m.config.Rules.foldl (fun rules r => if r.Enabled then rules ++ [r] else rules) []

/-! ## Package `proxy` -/

/-- Go `proxy.ProxyManager`. -/
structure ProxyManager where
  configManager : ConfigManager
  deriving DecidableEq, Repr

/-- What a call of the proxy does with the response writer: `http.Error` with a
status code and message, or `httputil.ReverseProxy.ServeHTTP` for a rule, with
the outbound request the `Director` has built from a clone of the inbound
one. -/
inductive Outcome
  | httpError (code : Nat) (msg : Str)
  | proxied (outreq : Request) (rule : ProxyRule) (pfx : Str)
  deriving DecidableEq, Repr

/-- Go `singleJoiningSlash`. -/
def singleJoiningSlash (a b : Str) : Str :=
  let aslash := HasSuffix a ['/']
  let bslash := HasPrefix b ['/']
  if aslash && bslash then a ++ b.drop 1
  else if !aslash && !bslash then a ++ ['/'] ++ b
  else a ++ b

/-- Go `getClientIP`. -/
def getClientIP (r : Request) : Str :=
  let xff := r.Header.Get "X-Forwarded-For".toList
  let ips := Split xff [',']
  if xff ≠ [] ∧ ips.length > 0 then TrimSpace (ips.headD [])
  else
    let xri := r.Header.Get "X-Real-IP".toList
    if xri ≠ [] then xri
    else (Split r.RemoteAddr [':']).headD []

/-- The `Director` closure of `handleProxy`: `r` is the inbound request,
`targetURL` the parsed target, `pfx` the mount path, `req` the outbound
request it rewrites (the log line is left out). -/
def Director (r : Request) (targetURL : URL) (pfx : Str) (req : Request) : Request :=
  let originalPath := req.URL.Path
  let newPath := TrimPrefix originalPath pfx
  let newPath := if newPath = [] then ['/'] else newPath
  let req := { req with URL := { req.URL with
    Scheme := targetURL.Scheme
    Host := targetURL.Host
    Path := singleJoiningSlash targetURL.Path newPath } }
  let req := { req with Host := targetURL.Host }
  let req := if r.URL.RawQuery ≠ [] then
    { req with URL := { req.URL with RawQuery := r.URL.RawQuery } } else req
  let req := { req with Header := req.Header.Set "X-Forwarded-Host".toList r.Host }
  let req := { req with Header := req.Header.Set "X-Forwarded-Proto".toList "http".toList }
  let req := { req with Header := req.Header.Set "X-Real-IP".toList (getClientIP r) }
  { req with Header := req.Header.Del "Accept-Encoding".toList }

/-- Go `ProxyManager.handleProxy`. -/
def ProxyManager.handleProxy (_pm : ProxyManager) (r : Request) (rule : ProxyRule)
    (pfx : Str) : Outcome :=
  match urlParse rule.Target with
  | none => .httpError 500 "Invalid target URL".toList
  | some targetURL => .proxied (Director r targetURL pfx r) rule pfx

/-- The mount path the loop of `ServeHTTP` derives from a rule: `rule.Path`
with a leading slash added when it has none. -/
def mountPath (rule : ProxyRule) : Str :=
  if !HasPrefix rule.Path ['/'] then ['/'] ++ rule.Path else rule.Path

/-- The loop of `ProxyManager.ServeHTTP` over the enabled rules. -/
def ProxyManager.serveRules (pm : ProxyManager) (r : Request) (path : Str) :
    List ProxyRule → Outcome
  | [] => .httpError 404 "No proxy rule matched".toList
  | rule :: rules =>
    if HasPrefix path (mountPath rule ++ ['/']) || path == mountPath rule then
      pm.handleProxy r rule (mountPath rule)
    else ProxyManager.serveRules pm r path rules

/-- Go `ProxyManager.ServeHTTP`. -/
def ProxyManager.ServeHTTP (pm : ProxyManager) (r : Request) : Outcome :=
  pm.serveRules r r.URL.Path pm.configManager.GetEnabledRules

/-- Go `ProxyManager.rewriteHTML`. -/
def ProxyManager.rewriteHTML (_pm : ProxyManager) (html : Str) (rule : ProxyRule)
    (pfx : Str) : Str :=
  match urlParse rule.Target with
  | none => html
  | some targetURL =>
    let html := ReplaceAllStringFunc (absolutePattern rule.Target) html
      (fun m => Replace m rule.Target pfx 1)
    let html := ReplaceAllStringFunc (protoRelativePattern targetURL.Host) html
      (fun m => Replace m (['/', '/'] ++ targetURL.Host) pfx 1)
    html

/-- Go `ProxyManager.modifyResponse`; `none` stands for a non-nil error, and
`gunzip` for what `compress/gzip` decodes from a complete byte stream (`none`
when the stream is not valid gzip). -/
def ProxyManager.modifyResponse (gunzip : Str → Option Str) (pm : ProxyManager)
    (resp : Response) (rule : ProxyRule) (pfx : Str) : Option Response :=
  let contentType := resp.Header.Get "Content-Type".toList
  if !Contains contentType "text/html".toList then some resp
  else
    let read : Option Str :=
      if resp.Header.Get "Content-Encoding".toList = "gzip".toList then
        (if resp.Body.err then none else gunzip resp.Body.bytes)
      else (if resp.Body.err then none else some resp.Body.bytes)
    match read with
    | none => none
    | some body =>
      let bodyStr := pm.rewriteHTML body rule pfx
      some { resp with
        Body := { bytes := bodyStr, err := false }
        ContentLength := (len bodyStr : Int)
        Header := (resp.Header.Set "Content-Length".toList (Nat.toDigits 10 (len bodyStr))).Del
          "Content-Encoding".toList }

/-! ## Definitions used to state the properties -/

/-- The normalized mount path of the specification: the rule's path with a
leading slash added when it has none. -/
def normalizedPath (p : Str) : Str :=
  if p.head? = some '/' then p else '/' :: p

/-- The match condition of the specification: `path` equals `P`, or starts
with `P` followed by a slash. -/
def pathMatches (path P : Str) : Prop :=
  path = P ∨ (P ++ ['/']) <+: path

instance (path P : Str) : Decidable (pathMatches path P) := by
  unfold pathMatches; infer_instance

/-- The string `a` with one trailing slash removed, if it has one. -/
def trimTrailingSlash (a : Str) : Str :=
  if a.getLast? = some '/' then a.dropLast else a

/-- The string `b` with one leading slash removed, if it has one. -/
def trimLeadingSlash (b : Str) : Str :=
  if b.head? = some '/' then b.tail else b

/-- The shape of the text the group `(/[^"']*)?` can match. -/
def pathPart (g : Str) : Prop :=
  g = [] ∨ ∃ g2, g = '/' :: g2 ∧ ∀ c ∈ g2, c ∉ ['"', '\'']

/-- The characters a URL scheme is made of. -/
def schemeChar (c : Char) : Bool :=
  isAlpha c || isDigit c || c == '+' || c == '-' || c == '.'

/-- Number of quote characters in a string. -/
def quoteCount (s : Str) : Nat := s.countP (fun c => decide (c ∈ ['"', '\'']))

/-- What `modifyResponse` reads from the body of an HTML response: the bytes
themselves, or what `gunzip` decodes from them when the Content-Encoding is
`gzip`; `none` when reading or decoding fails. -/
def decodedBody (gunzip : Str → Option Str) (resp : Response) : Option Str :=
  if resp.Body.err then none
  else if resp.Header.Get "Content-Encoding".toList = "gzip".toList then gunzip resp.Body.bytes
  else some resp.Body.bytes

/-- State-passing reading of `ConfigManager.GetEnabledRules`: the loop threads
the manager along with the slice it builds, and returns both. -/
def ConfigManager.runGetEnabledRules (m : ConfigManager) : ConfigManager × List ProxyRule :=
  m.config.Rules.foldl
    (fun st r => if r.Enabled then (st.1, st.2 ++ [r]) else st) (m, [])

/-! ## Sample data -/

/-- A rule mounted at `/a`. -/
def ruleA : ProxyRule :=
  { ID := ['1'], Name := ['a'], Path := ['/', 'a'], Target := "https://a.example".toList,
    Enabled := true, CreatedAt := 0, UpdatedAt := 0 }

/-- A rule mounted at `/a/b`. -/
def ruleAB : ProxyRule :=
  { ID := ['2'], Name := ['b'], Path := ['/', 'a', '/', 'b'],
    Target := "https://b.example/t/".toList, Enabled := true, CreatedAt := 0, UpdatedAt := 0 }

/-- A rule mounted at the root path, for the target `https://example.com`. -/
def rootRule : ProxyRule :=
  { ID := ['3'], Name := ['r'], Path := ['/'], Target := "https://example.com".toList,
    Enabled := true, CreatedAt := 0, UpdatedAt := 0 }

/-- A rule mounted at `/ex` for the target `https://example.com`. -/
def exampleRule : ProxyRule :=
  { ID := ['4'], Name := ['e'], Path := ['/', 'e', 'x'],
    Target := "https://example.com".toList, Enabled := true, CreatedAt := 0, UpdatedAt := 0 }

/-- A rule whose target `example.com` has neither scheme nor host. -/
def relativeTargetRule : ProxyRule :=
  { ID := ['5'], Name := ['l'], Path := ['/', 'r', 'e', 'l'], Target := "example.com".toList,
    Enabled := true, CreatedAt := 0, UpdatedAt := 0 }

/-- A rule whose target `http://exa mple.com` holds a space in the host. -/
def brokenTargetRule : ProxyRule :=
  { ID := ['6'], Name := ['k'], Path := ['/', 'b', 'a', 'd'],
    Target := "http://exa mple.com".toList, Enabled := true, CreatedAt := 0, UpdatedAt := 0 }

/-- A stand-in for the gzip decoder on one sample stream, which holds a link
with the character U+00E9 (two bytes) in its path. -/
def sampleGunzip (s : Str) : Option Str :=
  if s = ['G', 'Z'] then some "<a href=\"https://example.com/caf\u00e9\">".toList else none

/-- An HTML response with a gzip Content-Encoding. -/
def gzipHtmlResponse : Response :=
  { Header := [("Content-Type".toList, ["text/html; charset=utf-8".toList]),
               ("Content-Encoding".toList, ["gzip".toList]),
               ("Content-Length".toList, ["2".toList])],
    Body := { bytes := ['G', 'Z'], err := false },
    ContentLength := 2 }

/-- A JSON response with a gzip Content-Encoding. -/
def jsonResponse : Response :=
  { Header := [("Content-Type".toList, ["application/json".toList]),
               ("Content-Encoding".toList, ["gzip".toList]),
               ("Content-Length".toList, ["2".toList])],
    Body := { bytes := "\x7b\x7d".toList, err := false },
    ContentLength := 2 }

/-- A proxy manager over the given stored rules. -/
def managerOf (rules : List ProxyRule) : ProxyManager :=
  { configManager := { config := { Rules := rules }, filePath := "data/rules.json".toList } }

/-- An inbound request for `path` with no forwarding headers. -/
def requestFor (path : Str) : Request :=
  { URL := { Path := path }, Host := "localhost:8080".toList, Header := [],
    RemoteAddr := "127.0.0.1:5000".toList }

/-- An inbound request with the header `X-Forwarded-For: 1.2.3.4, 5.6.7.8`. -/
def forwardedRequest : Request :=
  { URL := { Path := "/a/x".toList }, Host := "localhost:8080".toList,
    Header := [("X-Forwarded-For".toList, ["1.2.3.4, 5.6.7.8".toList]),
               ("X-Real-IP".toList, ["9.9.9.9".toList])],
    RemoteAddr := "127.0.0.1:5000".toList }

/-- An inbound request from the IPv6 loopback address, with no forwarding
headers. -/
def ipv6Request : Request :=
  { URL := { Path := "/a/x".toList }, Host := "localhost:8080".toList, Header := [],
    RemoteAddr := "[::1]:8080".toList }

/-- An outbound request that already holds the query `x=1`. -/
def queryRequest : Request :=
  { URL := { Path := "/a/x".toList, RawQuery := "x=1".toList }, Host := "localhost:8080".toList,
    Header := [], RemoteAddr := "127.0.0.1:5000".toList }

/-- A rule mounted at `/a` whose target `https://h//` has the path `//`. -/
def slashTargetRule : ProxyRule :=
  { ID := ['8'], Name := ['s'], Path := ['/', 'a'], Target := "https://h//".toList,
    Enabled := true, CreatedAt := 0, UpdatedAt := 0 }

/-- A rule mounted at `/ex` whose target `https://ex%C3%A9.com` spells the
character U+00E9 of its host with two escapes. -/
def escapedHostRule : ProxyRule :=
  { ID := ['9'], Name := ['h'], Path := ['/', 'e', 'x'],
    Target := "https://ex%C3%A9.com".toList, Enabled := true, CreatedAt := 0, UpdatedAt := 0 }

/-- A disabled rule mounted at `/off`. -/
def disabledRule : ProxyRule :=
  { ID := ['7'], Name := ['d'], Path := ['/', 'o', 'f', 'f'],
    Target := "https://off.example".toList, Enabled := false, CreatedAt := 0, UpdatedAt := 0 }

/-! # Theorems -/

/-! ## Routing -/

theorem hasPrefix_iff (s pre : Str) : HasPrefix s pre = true ↔ pre <+: s := by
  unfold HasPrefix
  exact List.isPrefixOf_iff_prefix

theorem mountPath_eq (rule : ProxyRule) : mountPath rule = normalizedPath rule.Path := by
  unfold mountPath normalizedPath HasPrefix
  cases h : rule.Path with
  | nil => simp
  | cons c t =>
    by_cases hc : c = '/'
    · subst hc; simp
    · have hc2 : ¬ ('/' = c) := fun e => hc e.symm
      simp [hc, hc2, List.isPrefixOf]

theorem serve_test_iff (path : Str) (rule : ProxyRule) :
    (HasPrefix path (mountPath rule ++ ['/']) || path == mountPath rule) = true ↔
      pathMatches path (normalizedPath rule.Path) := by
  rw [mountPath_eq]
  unfold pathMatches
  simp only [Bool.or_eq_true, hasPrefix_iff, beq_iff_eq]
  exact Or.comm

theorem handleProxy_ne_notFound (pm : ProxyManager) (r : Request) (rule : ProxyRule)
    (pfx : Str) : pm.handleProxy r rule pfx ≠ .httpError 404 "No proxy rule matched".toList := by
  unfold ProxyManager.handleProxy
  cases urlParse rule.Target with
  | none => simp
  | some u => simp

theorem serveRules_first (pm : ProxyManager) (r : Request) (path : Str)
    (pre : List ProxyRule) (rule : ProxyRule) (post : List ProxyRule)
    (hpre : ∀ x ∈ pre, ¬ pathMatches path (normalizedPath x.Path))
    (hrule : pathMatches path (normalizedPath rule.Path)) :
    pm.serveRules r path (pre ++ rule :: post) =
      pm.handleProxy r rule (normalizedPath rule.Path) := by
  induction pre with
  | nil =>
    have h := (serve_test_iff path rule).mpr hrule
    rw [List.nil_append, ProxyManager.serveRules, if_pos h, mountPath_eq]
  | cons x xs ih =>
    have hx : ¬ ((HasPrefix path (mountPath x ++ ['/']) || path == mountPath x) = true) :=
      fun h => hpre x (List.mem_cons_self _ _) ((serve_test_iff path x).mp h)
    rw [List.cons_append, ProxyManager.serveRules, if_neg hx]
    exact ih (fun y hy => hpre y (List.mem_cons_of_mem _ hy))

theorem serveRules_notFound_iff (pm : ProxyManager) (r : Request) (path : Str)
    (rules : List ProxyRule) :
    pm.serveRules r path rules = .httpError 404 "No proxy rule matched".toList ↔
      ∀ x ∈ rules, ¬ pathMatches path (normalizedPath x.Path) := by
  induction rules with
  | nil => simp [ProxyManager.serveRules]
  | cons x xs ih =>
    by_cases hx : (HasPrefix path (mountPath x ++ ['/']) || path == mountPath x) = true
    · have hm := (serve_test_iff path x).mp hx
      rw [ProxyManager.serveRules, if_pos hx]
      constructor
      · intro h; exact absurd h (handleProxy_ne_notFound pm r x _)
      · intro h; exact absurd hm (h x (List.mem_cons_self _ _))
    · have hm : ¬ pathMatches path (normalizedPath x.Path) :=
        fun h => hx ((serve_test_iff path x).mpr h)
      rw [ProxyManager.serveRules, if_neg hx, ih]
      constructor
      · intro h y hy
        rcases List.mem_cons.mp hy with rfl | hy
        · exact hm
        · exact h y hy
      · intro h y hy
        exact h y (List.mem_cons_of_mem _ hy)

/-- C1. First-match routing: `ServeHTTP` hands the request to the first enabled
rule, in list order, whose normalized path `P` satisfies `path = P` or `path`
starts with `P ++ "/"`, and answers 404 "No proxy rule matched" exactly when no
enabled rule satisfies that.  With rules `[/a, /a/b]` the path `/a/b/x` goes to
`/a`; with `[/a/b, /a]` it goes to `/a/b`. -/
theorem serveHTTP_first_match (pm : ProxyManager) (r : Request) :
    (∀ pre rule post, pm.configManager.GetEnabledRules = pre ++ rule :: post →
      (∀ x ∈ pre, ¬ pathMatches r.URL.Path (normalizedPath x.Path)) →
      pathMatches r.URL.Path (normalizedPath rule.Path) →
      pm.ServeHTTP r = pm.handleProxy r rule (normalizedPath rule.Path)) ∧
    (pm.ServeHTTP r = .httpError 404 "No proxy rule matched".toList ↔
      ∀ x ∈ pm.configManager.GetEnabledRules,
        ¬ pathMatches r.URL.Path (normalizedPath x.Path)) ∧
    (∀ ra rb : ProxyRule, ra.Path = ['/', 'a'] → rb.Path = ['/', 'a', '/', 'b'] →
      r.URL.Path = ['/', 'a', '/', 'b', '/', 'x'] →
      (pm.configManager.GetEnabledRules = [ra, rb] →
        pm.ServeHTTP r = pm.handleProxy r ra ['/', 'a']) ∧
      (pm.configManager.GetEnabledRules = [rb, ra] →
        pm.ServeHTTP r = pm.handleProxy r rb ['/', 'a', '/', 'b'])) := by
  refine ⟨?_, ?_, ?_⟩
  · intro pre rule post hrules hpre hrule
    unfold ProxyManager.ServeHTTP
    rw [hrules]
    exact serveRules_first pm r _ pre rule post hpre hrule
  · unfold ProxyManager.ServeHTTP
    exact serveRules_notFound_iff pm r _ _
  · intro ra rb ha hb hp
    constructor
    · intro hrules
      unfold ProxyManager.ServeHTTP
      rw [hrules]
      have h := serveRules_first pm r r.URL.Path [] ra [rb] (by simp)
        (by rw [ha, hp]; decide)
      rw [ha] at h
      exact h
    · intro hrules
      unfold ProxyManager.ServeHTTP
      rw [hrules]
      have h := serveRules_first pm r r.URL.Path [] rb [ra] (by simp)
        (by rw [hb, hp]; decide)
      rw [hb] at h
      exact h

theorem serveHTTP_first_match_witness :
    (managerOf [ruleA, ruleAB]).ServeHTTP (requestFor "/a/b/x".toList) =
      (managerOf [ruleA, ruleAB]).handleProxy (requestFor "/a/b/x".toList) ruleA ['/', 'a'] :=
  ((serveHTTP_first_match (managerOf [ruleA, ruleAB]) (requestFor "/a/b/x".toList)).2.2
    ruleA ruleAB rfl rfl rfl).1 (by decide)

/-- C2, as stated, fails: a listed rule does not receive the paths under its
mount path when an earlier rule of the list matches them too.  With the enabled
rules `[/a, /a/b]` the path `/a/b/x` is not handled by the rule `/a/b`. -/
theorem route_to_listed_rule_counterexample :
    ¬ ∀ (pm : ProxyManager) (r : Request) (rule : ProxyRule) (s : Str),
      rule ∈ pm.configManager.GetEnabledRules →
      (r.URL.Path = normalizedPath rule.Path ∨
        r.URL.Path = normalizedPath rule.Path ++ ['/'] ++ s) →
      pm.ServeHTTP r = pm.handleProxy r rule (normalizedPath rule.Path) := by
  intro h
  have h1 := h (managerOf [ruleA, ruleAB]) (requestFor "/a/b/x".toList) ruleAB ['x']
    (by decide) (by decide)
  revert h1
  decide

/-- C2, amended. For a rule of the enabled list with normalized path `P`, the
path `P` and every path `P ++ "/" ++ s` are routed by `ServeHTTP` to that rule
whenever no rule before it in the list matches the path. -/
theorem route_to_listed_rule (pm : ProxyManager) (r : Request)
    (pre : List ProxyRule) (rule : ProxyRule) (post : List ProxyRule) (s : Str)
    (hrules : pm.configManager.GetEnabledRules = pre ++ rule :: post)
    (hpath : r.URL.Path = normalizedPath rule.Path ∨
      r.URL.Path = normalizedPath rule.Path ++ ['/'] ++ s)
    (hpre : ∀ x ∈ pre, ¬ pathMatches r.URL.Path (normalizedPath x.Path)) :
    pm.ServeHTTP r = pm.handleProxy r rule (normalizedPath rule.Path) := by
  unfold ProxyManager.ServeHTTP
  rw [hrules]
  apply serveRules_first pm r _ pre rule post hpre
  rcases hpath with h | h
  · exact Or.inl h
  · right
    rw [h]
    exact ⟨s, rfl⟩

theorem route_to_listed_rule_witness :
    (managerOf [ruleA, ruleAB]).ServeHTTP (requestFor "/a/b/x".toList) =
      (managerOf [ruleA, ruleAB]).handleProxy (requestFor "/a/b/x".toList) ruleA
        (normalizedPath ruleA.Path) :=
  route_to_listed_rule (managerOf [ruleA, ruleAB]) (requestFor "/a/b/x".toList)
    [] ruleA [ruleAB] "b/x".toList (by decide) (by decide) (by decide)

theorem hasSuffix_slash_iff (a : Str) : HasSuffix a ['/'] = true ↔ a.getLast? = some '/' := by
  unfold HasSuffix
  rw [List.isSuffixOf_iff_suffix, ← List.reverse_prefix, ← List.head?_reverse]
  cases a.reverse with
  | nil => simp
  | cons c t =>
    simp only [List.reverse_singleton, List.head?_cons, Option.some.injEq]
    constructor
    · rintro ⟨w, hw⟩
      simp only [List.singleton_append, List.cons.injEq] at hw
      exact hw.1.symm
    · rintro rfl
      exact ⟨t, rfl⟩

theorem hasPrefix_slash_iff (b : Str) : HasPrefix b ['/'] = true ↔ b.head? = some '/' := by
  unfold HasPrefix
  cases b with
  | nil => simp
  | cons c t =>
    by_cases hc : c = '/'
    · subst hc; simp
    · have hc2 : ¬ ('/' = c) := fun e => hc e.symm
      simp [hc, hc2, List.isPrefixOf]

theorem singleJoiningSlash_eq (a b : Str) :
    singleJoiningSlash a b = trimTrailingSlash a ++ ['/'] ++ trimLeadingSlash b := by
  unfold singleJoiningSlash trimTrailingSlash trimLeadingSlash
  by_cases ha : a.getLast? = some '/'
  · have ha2 := (hasSuffix_slash_iff a).mpr ha
    obtain ⟨l, rfl⟩ : ∃ l, a = l ++ ['/'] := by
      have hne : a ≠ [] := by rintro rfl; simp at ha
      refine ⟨a.dropLast, ?_⟩
      have h1 := List.dropLast_append_getLast hne
      rw [List.getLast?_eq_getLast a hne] at ha
      simp only [Option.some.injEq] at ha
      rw [ha] at h1
      exact h1.symm
    by_cases hb : b.head? = some '/'
    · have hb2 := (hasPrefix_slash_iff b).mpr hb
      cases b with
      | nil => simp at hb
      | cons c t => simp [ha2, hb2, ha, hb]
    · have hb2 : HasPrefix b ['/'] = false := by
        rw [← Bool.not_eq_true, hasPrefix_slash_iff]; exact hb
      simp [ha2, hb2, ha, hb]
  · have ha2 : HasSuffix a ['/'] = false := by
      rw [← Bool.not_eq_true, hasSuffix_slash_iff]; exact ha
    by_cases hb : b.head? = some '/'
    · have hb2 := (hasPrefix_slash_iff b).mpr hb
      cases b with
      | nil => simp at hb
      | cons c t =>
        simp at hb
        subst hb
        simp [ha2, hb2, ha]
    · have hb2 : HasPrefix b ['/'] = false := by
        rw [← Bool.not_eq_true, hasPrefix_slash_iff]; exact hb
      simp [ha2, hb2, ha, hb]

/-- C3. Single-slash join: `singleJoiningSlash a b` is `a` without one trailing
slash, then one slash, then `b` without one leading slash; so `("/t/", "/x")`,
`("/t", "/x")` and `("/t/", "x")` all give `"/t/x"`. -/
theorem singleJoiningSlash_single_slash :
    (∀ a b : Str,
      singleJoiningSlash a b = trimTrailingSlash a ++ ['/'] ++ trimLeadingSlash b) ∧
    singleJoiningSlash ['/', 't', '/'] ['/', 'x'] = ['/', 't', '/', 'x'] ∧
    singleJoiningSlash ['/', 't'] ['/', 'x'] = ['/', 't', '/', 'x'] ∧
    singleJoiningSlash ['/', 't', '/'] ['x'] = ['/', 't', '/', 'x'] :=
  ⟨singleJoiningSlash_eq, by decide, by decide, by decide⟩

theorem director_url_path (r : Request) (u : URL) (P : Str) (req : Request) :
    (Director r u P req).URL.Path =
      singleJoiningSlash u.Path
        (if TrimPrefix req.URL.Path P = [] then ['/'] else TrimPrefix req.URL.Path P) := by
  unfold Director
  by_cases hq : r.URL.RawQuery = []
  · simp [hq]
  · simp [hq]

theorem trimPrefix_of_matches (path P : Str) (h : pathMatches path P) :
    TrimPrefix path P = path.drop P.length := by
  have hp : P <+: path := by
    rcases h with h | h
    · rw [h]
    · exact (List.prefix_append P ['/']).trans h
  unfold TrimPrefix
  rw [if_pos ((hasPrefix_iff _ _).mpr hp)]

theorem trimTrailingSlash_no_double (tp : Str) (h : ¬ ['/', '/'] <:+ tp) :
    ¬ ['/', '/'] <:+ (trimTrailingSlash tp ++ ['/']) := by
  rintro ⟨w, hw⟩
  have hw2 : (w ++ ['/']) ++ ['/'] = trimTrailingSlash tp ++ ['/'] := by
    rw [← hw]; simp
  have hx : w ++ ['/'] = trimTrailingSlash tp := List.append_cancel_right hw2
  unfold trimTrailingSlash at hx
  by_cases hl : tp.getLast? = some '/'
  · rw [if_pos hl] at hx
    have hne : tp ≠ [] := by rintro rfl; simp at hl
    have h1 := List.dropLast_append_getLast hne
    rw [List.getLast?_eq_getLast tp hne] at hl
    simp only [Option.some.injEq] at hl
    rw [hl, ← hx] at h1
    exact h ⟨w, by rw [← h1]; simp⟩
  · rw [if_neg hl] at hx
    apply hl
    rw [← hx]
    simp

/-- C4, as stated, fails: the target `https://h//` has the path `//`, and for a
request whose path is the mount path `/a` itself the upstream path is
`singleJoiningSlash "//" "/"`, that is `//`: it ends in two slashes, not in
exactly one. -/
theorem director_upstream_path_counterexample :
    ¬ ∀ (r req : Request) (rule : ProxyRule) (u : URL) (P : Str),
      urlParse rule.Target = some u → pathMatches req.URL.Path P → req.URL.Path = P →
      ['/'] <:+ (Director r u P req).URL.Path ∧
        ¬ ['/', '/'] <:+ (Director r u P req).URL.Path := by
  intro h
  have h1 := h (requestFor ['/', 'a']) (requestFor ['/', 'a']) slashTargetRule
    { Scheme := "https".toList, Host := ['h'], Path := ['/', '/'] } ['/', 'a']
    (by decide) (by decide) (by decide)
  have h2 : (Director (requestFor ['/', 'a'])
      { Scheme := "https".toList, Host := ['h'], Path := ['/', '/'] } ['/', 'a']
      (requestFor ['/', 'a'])).URL.Path = ['/', '/'] := by decide
  rw [h2] at h1
  exact h1.2 (List.suffix_refl _)

/-- C4, amended. Forward path translation: for an outbound request whose path
matched the mount path `P` and every target URL, the `Director` takes
`suffix` = the path with the leading `P` removed (`"/"` when that is empty) and
sets the upstream path to `singleJoiningSlash target.Path suffix`.  The suffix
begins with a slash.  For `path = P` the upstream path is the target path with
one trailing slash removed if present, followed by `"/"`: it ends in a slash,
and in exactly one when the target path does not itself end in two.  For
`path = P ++ "/" ++ rest` it is the target path with one trailing slash removed
if present, followed by `"/" ++ rest`. -/
theorem director_upstream_path (r req : Request) (u : URL) (P : Str)
    (hmatch : pathMatches req.URL.Path P) :
    ∃ suffix,
      suffix = (if req.URL.Path.drop P.length = [] then ['/'] else req.URL.Path.drop P.length) ∧
      (Director r u P req).URL.Path = singleJoiningSlash u.Path suffix ∧
      suffix.head? = some '/' ∧
      (req.URL.Path = P →
        (Director r u P req).URL.Path = trimTrailingSlash u.Path ++ ['/'] ∧
        ['/'] <:+ (Director r u P req).URL.Path ∧
        (¬ ['/', '/'] <:+ u.Path → ¬ ['/', '/'] <:+ (Director r u P req).URL.Path)) ∧
      (∀ rest, req.URL.Path = P ++ ['/'] ++ rest →
        (Director r u P req).URL.Path = trimTrailingSlash u.Path ++ ['/'] ++ rest) := by
  refine ⟨_, rfl, ?_, ?_, ?_, ?_⟩
  · rw [director_url_path, trimPrefix_of_matches _ _ hmatch]
  · rcases hmatch with h | ⟨t, h⟩
    · rw [h]; simp
    · rw [← h]; simp
  · intro h
    have hout : (Director r u P req).URL.Path = trimTrailingSlash u.Path ++ ['/'] := by
      rw [director_url_path, trimPrefix_of_matches _ _ hmatch, singleJoiningSlash_eq, h]
      simp [trimLeadingSlash]
    refine ⟨hout, ?_, fun hd => ?_⟩
    · rw [hout]
      exact List.suffix_append _ _
    · rw [hout]
      exact trimTrailingSlash_no_double u.Path hd
  · intro rest h
    rw [director_url_path, trimPrefix_of_matches _ _ hmatch, singleJoiningSlash_eq, h]
    simp [trimLeadingSlash]

theorem director_upstream_path_witness :
    pathMatches (requestFor "/a/b/x".toList).URL.Path ['/', 'a', '/', 'b'] ∧
    (Director (requestFor "/a/b/x".toList)
      { Scheme := "https".toList, Host := "b.example".toList, Path := "/t/".toList }
      ['/', 'a', '/', 'b'] (requestFor "/a/b/x".toList)).URL.Path =
      trimTrailingSlash "/t/".toList ++ ['/'] ++ ['x'] :=
  ⟨by decide,
    (director_upstream_path (requestFor "/a/b/x".toList) (requestFor "/a/b/x".toList)
      { Scheme := "https".toList, Host := "b.example".toList, Path := "/t/".toList }
      ['/', 'a', '/', 'b'] (by decide)).elim
      (fun _ h => h.2.2.2.2 ['x'] (by decide))⟩

/-! ## Response passthrough and rewriting of the response -/

theorem contains_iff (s sub : Str) : Contains s sub = true ↔ sub <:+: s := by
  unfold Contains
  induction s with
  | nil =>
    rw [Index]
    by_cases h : sub = []
    · simp [h]
    · simp [h]
  | cons c cs ih =>
    rw [Index, List.infix_cons_iff]
    by_cases hp : sub.isPrefixOf (c :: cs) = true
    · rw [if_pos hp]
      simp [List.isPrefixOf_iff_prefix.mp hp]
    · rw [if_neg hp]
      have hnp : ¬ sub <+: c :: cs := fun h => hp (List.isPrefixOf_iff_prefix.mpr h)
      rw [Option.isSome_map', ih]
      simp [hnp]

/-- C8. Non-HTML passthrough: when the Content-Type header does not contain
`text/html`, `modifyResponse` returns no error and the response is the upstream
response, unchanged: same body, same `ContentLength`, same headers (so the same
Content-Length and Content-Encoding). -/
theorem modifyResponse_passthrough (gunzip : Str → Option Str) (pm : ProxyManager)
    (resp : Response) (rule : ProxyRule) (pfx : Str)
    (hnot : ¬ "text/html".toList <:+: resp.Header.Get "Content-Type".toList) :
    pm.modifyResponse gunzip resp rule pfx = some resp := by
  have hct : Contains (resp.Header.Get "Content-Type".toList) "text/html".toList = false := by
    rw [← Bool.not_eq_true, contains_iff]
    exact hnot
  unfold ProxyManager.modifyResponse
  simp only []
  rw [hct]
  rfl

theorem modifyResponse_passthrough_witness :
    (managerOf [ruleA]).modifyResponse (fun _ => none) jsonResponse ruleA ['/', 'a'] =
      some jsonResponse :=
  modifyResponse_passthrough (fun _ => none) (managerOf [ruleA]) jsonResponse ruleA ['/', 'a']
    (by decide)

theorem header_get_set_del (h : Header) (k k2 v : Str) (hk : k ≠ k2) :
    Header.Get ((Header.Set h k v).Del k2) k = v := by
  simp [Header.Get, Header.Set, Header.Del, List.filter, hk, List.lookup]

theorem header_lookup_del (h : Header) (k : Str) : (Header.Del h k).lookup k = none := by
  unfold Header.Del
  induction h with
  | nil => rfl
  | cons kv t ih =>
    obtain ⟨a, b⟩ := kv
    by_cases hk : a = k
    · rw [List.filter_cons_of_neg (by simpa using hk)]
      exact ih
    · have hk2 : (k == a) = false := by
        rw [beq_eq_false_iff_ne]; exact fun e => hk e.symm
      rw [List.filter_cons_of_pos (by simpa using hk), List.lookup_cons, hk2]
      exact ih

theorem runeLen_utf8Size (c : Char) : RuneLen c = c.utf8Size := by
  have key : ∀ (k : UInt32), c.val ≤ k ↔ c.toNat ≤ k.toNat := fun _ => Iff.rfl
  unfold RuneLen Char.utf8Size
  simp only [key]
  have h1 : (UInt32.ofNatCore 127 (by decide)).toNat = 127 := rfl
  have h2 : (UInt32.ofNatCore 2047 (by decide)).toNat = 2047 := rfl
  have h3 : (UInt32.ofNatCore 65535 (by decide)).toNat = 65535 := rfl
  rw [h1, h2, h3]
  split_ifs <;> omega

theorem utf8ByteSize_go (s : Str) : String.utf8ByteSize.go s = len s := by
  induction s with
  | nil => rfl
  | cons c cs ih =>
    rw [String.utf8ByteSize.go, ih]
    unfold len
    rw [List.map_cons, List.sum_cons, runeLen_utf8Size]
    omega

/-- The byte length `len` of a text is the size of its UTF-8 encoding. -/
theorem len_utf8ByteSize (s : Str) : len s = (String.mk s).utf8ByteSize :=
  (utf8ByteSize_go s).symm

/-- The byte length and the number of characters differ outside ASCII: the
text `<p>é</p>` has 8 characters and 9 bytes. -/
theorem len_accent_example :
    ("<p>\u00e9</p>".toList).length = 8 ∧ len "<p>\u00e9</p>".toList = 9 := by decide

/-- C9. For an HTML response whose body is read (and, under a gzip
Content-Encoding, decompressed) without error to the text `body`,
`modifyResponse` returns no error and a response whose body is
`rewriteHTML body`, whose `ContentLength` and Content-Length header are the
exact byte length `len` of that rewritten body (the header in decimal, the
length being the size of the UTF-8 encoding), and which has no
Content-Encoding header. -/
theorem modifyResponse_html (gunzip : Str → Option Str) (pm : ProxyManager)
    (resp : Response) (rule : ProxyRule) (pfx body : Str)
    (hhtml : "text/html".toList <:+: resp.Header.Get "Content-Type".toList)
    (hbody : decodedBody gunzip resp = some body) :
    ∃ out, pm.modifyResponse gunzip resp rule pfx = some out ∧
      out.Body = { bytes := pm.rewriteHTML body rule pfx, err := false } ∧
      out.ContentLength = (len (pm.rewriteHTML body rule pfx) : Int) ∧
      out.Header.Get "Content-Length".toList =
        (Nat.repr (len (pm.rewriteHTML body rule pfx))).toList ∧
      out.Header.lookup "Content-Encoding".toList = none ∧
      len (pm.rewriteHTML body rule pfx) =
        (String.mk (pm.rewriteHTML body rule pfx)).utf8ByteSize := by
  have hct : Contains (resp.Header.Get "Content-Type".toList) "text/html".toList = true :=
    (contains_iff _ _).mpr hhtml
  have hread : (if resp.Header.Get "Content-Encoding".toList = "gzip".toList then
        (if resp.Body.err then none else gunzip resp.Body.bytes)
      else (if resp.Body.err then none else some resp.Body.bytes)) = some body := by
    unfold decodedBody at hbody
    by_cases he : resp.Body.err = true
    · simp [he] at hbody
    · by_cases hg : resp.Header.Get "Content-Encoding".toList = "gzip".toList
      · simp [he, hg] at hbody ⊢; exact hbody
      · simp [he, hg] at hbody ⊢; exact hbody
  unfold ProxyManager.modifyResponse
  simp only [hct, Bool.not_true, Bool.false_eq_true, if_false, hread]
  refine ⟨_, rfl, rfl, rfl, ?_, ?_, len_utf8ByteSize _⟩
  · exact header_get_set_del resp.Header "Content-Length".toList "Content-Encoding".toList
      (Nat.toDigits 10 (len (pm.rewriteHTML body rule pfx))) (by decide)
  · exact header_lookup_del _ _

/-! ## The matcher on the two link patterns -/

theorem run_lit_eq (t s : Str) (k : Str → Option Str) :
    Regex.run (.lit t) s k = if t.isPrefixOf s then k (s.drop t.length) else none := by
  rw [Regex.run.eq_def]

theorem run_cls_cons (cs : List Char) (c : Char) (s : Str) (k : Str → Option Str) :
    Regex.run (.cls cs) (c :: s) k = if c ∈ cs then k s else none := by
  rw [Regex.run.eq_def]

theorem run_cls_nil (cs : List Char) (k : Str → Option Str) :
    Regex.run (.cls cs) [] k = none := by
  rw [Regex.run.eq_def]

theorem run_ncls_cons (cs : List Char) (c : Char) (s : Str) (k : Str → Option Str) :
    Regex.run (.ncls cs) (c :: s) k = if c ∈ cs then none else k s := by
  rw [Regex.run.eq_def]

theorem run_ncls_nil (cs : List Char) (k : Str → Option Str) :
    Regex.run (.ncls cs) [] k = none := by
  rw [Regex.run.eq_def]

theorem run_cat_eq (a b : Regex) (s : Str) (k : Str → Option Str) :
    Regex.run (.cat a b) s k = Regex.run a s (fun s2 => Regex.run b s2 k) := by
  rw [Regex.run.eq_def]

theorem run_alt_eq (a b : Regex) (s : Str) (k : Str → Option Str) :
    Regex.run (.alt a b) s k =
      (match Regex.run a s k with
       | some r => some r
       | none => Regex.run b s k) := by
  rw [Regex.run.eq_def]

theorem run_quest_eq (a : Regex) (s : Str) (k : Str → Option Str) :
    Regex.run (.quest a) s k =
      (match Regex.run a s k with
       | some r => some r
       | none => k s) := by
  rw [Regex.run.eq_def]

theorem run_star_eq (a : Regex) (s : Str) (k : Str → Option Str) :
    Regex.run (.star a) s k = starLoop (Regex.run a) s.length s k := by
  rw [Regex.run.eq_def]

theorem run_lit (t s : Str) (k : Str → Option Str) (r : Str) :
    Regex.run (.lit t) s k = some r ↔ ∃ s2, s = t ++ s2 ∧ k s2 = some r := by
  rw [run_lit_eq]
  constructor
  · intro h
    by_cases hp : t.isPrefixOf s = true
    · rw [if_pos hp] at h
      obtain ⟨w, rfl⟩ := List.isPrefixOf_iff_prefix.mp hp
      rw [List.drop_left] at h
      exact ⟨w, rfl, h⟩
    · rw [if_neg hp] at h
      exact absurd h (by simp)
  · rintro ⟨s2, rfl, h⟩
    have hp : t.isPrefixOf (t ++ s2) = true :=
      List.isPrefixOf_iff_prefix.mpr (List.prefix_append _ _)
    rw [if_pos hp, List.drop_left]
    exact h

theorem run_cls (cs : List Char) (s : Str) (k : Str → Option Str) (r : Str) :
    Regex.run (.cls cs) s k = some r ↔ ∃ c s2, s = c :: s2 ∧ c ∈ cs ∧ k s2 = some r := by
  cases s with
  | nil => rw [run_cls_nil]; simp
  | cons c s2 =>
    rw [run_cls_cons]
    by_cases hc : c ∈ cs
    · rw [if_pos hc]
      constructor
      · intro h; exact ⟨c, s2, rfl, hc, h⟩
      · rintro ⟨c2, s3, he, _, h⟩
        simp only [List.cons.injEq] at he
        rw [he.2]; exact h
    · rw [if_neg hc]
      constructor
      · intro h; exact absurd h (by simp)
      · rintro ⟨c2, s3, he, hc2, _⟩
        simp only [List.cons.injEq] at he
        rw [← he.1] at hc2
        exact absurd hc2 hc

theorem starLoop_ncls_sound (qs : List Char) (k : Str → Option Str) (r : Str) :
    ∀ (n : Nat) (s : Str), starLoop (Regex.run (.ncls qs)) n s k = some r →
      ∃ g s2, s = g ++ s2 ∧ (∀ c ∈ g, c ∉ qs) ∧ k s2 = some r := by
  intro n
  induction n with
  | zero =>
    intro s h
    rw [starLoop] at h
    exact ⟨[], s, rfl, by simp, h⟩
  | succ n ih =>
    intro s h
    rw [starLoop] at h
    cases s with
    | nil =>
      rw [run_ncls_nil] at h
      exact ⟨[], [], rfl, by simp, h⟩
    | cons c s2 =>
      rw [run_ncls_cons] at h
      by_cases hc : c ∈ qs
      · rw [if_pos hc] at h
        exact ⟨[], c :: s2, rfl, by simp, h⟩
      · rw [if_neg hc, if_pos (by simp)] at h
        cases hrec : starLoop (Regex.run (.ncls qs)) n s2 k with
        | none =>
          rw [hrec] at h
          exact ⟨[], c :: s2, rfl, by simp, h⟩
        | some r2 =>
          rw [hrec] at h
          simp only [Option.some.injEq] at h
          subst h
          obtain ⟨g, s3, hs, hg, hk⟩ := ih s2 hrec
          refine ⟨c :: g, s3, by rw [hs]; rfl, ?_, hk⟩
          intro x hx
          rcases List.mem_cons.mp hx with rfl | hx
          · exact hc
          · exact hg x hx

theorem starLoop_ncls_complete (qs : List Char) (k : Str → Option Str) (r : Str)
    (q : Char) (rest : Str) (hq : q ∈ qs) (hk : k (q :: rest) = some r) :
    ∀ (g : Str) (n : Nat), g.length ≤ n → (∀ c ∈ g, c ∉ qs) →
      starLoop (Regex.run (.ncls qs)) n (g ++ q :: rest) k = some r := by
  intro g
  induction g with
  | nil =>
    intro n _ _
    cases n with
    | zero => rw [starLoop]; exact hk
    | succ n =>
      rw [starLoop, List.nil_append, run_ncls_cons, if_pos hq]
      exact hk
  | cons c g ih =>
    intro n hn hg
    cases n with
    | zero => simp at hn
    | succ n =>
      have hc : c ∉ qs := hg c (List.mem_cons_self _ _)
      have hrec := ih n (by simpa using hn) (fun x hx => hg x (List.mem_cons_of_mem _ hx))
      rw [starLoop, List.cons_append, run_ncls_cons, if_neg hc, if_pos (by simp), hrec]

theorem tail_sound (s rest : Str)
    (h : Regex.run (.cat optPath quoteClass) s some = some rest) :
    ∃ g q, s = g ++ q :: rest ∧ q ∈ ['"', '\''] ∧
      (g = [] ∨ ∃ g2, g = '/' :: g2 ∧ ∀ c ∈ g2, c ∉ ['"', '\'']) := by
  rw [run_cat_eq, optPath, run_quest_eq] at h
  cases hgrp : Regex.run (.cat (.lit ['/']) (.star (.ncls ['"', '\''])))
      s (fun s2 => Regex.run quoteClass s2 some) with
  | some r =>
    rw [hgrp] at h
    simp only [Option.some.injEq] at h
    subst h
    rw [run_cat_eq] at hgrp
    obtain ⟨w, rfl, hw⟩ := (run_lit _ _ _ _).mp hgrp
    rw [run_star_eq] at hw
    obtain ⟨g, s3, hs, hg, hk⟩ := starLoop_ncls_sound _ _ _ _ _ hw
    obtain ⟨c, s4, hs3, hc, hr⟩ := (run_cls _ _ _ _).mp hk
    simp only [Option.some.injEq] at hr
    subst hr hs3 hs
    exact ⟨'/' :: g, c, by simp, hc, Or.inr ⟨g, rfl, hg⟩⟩
  | none =>
    rw [hgrp] at h
    obtain ⟨c, s4, hs3, hc, hr⟩ := (run_cls _ _ _ _).mp h
    simp only [Option.some.injEq] at hr
    subst hr hs3
    exact ⟨[], c, rfl, hc, Or.inl rfl⟩

theorem tail_complete (g : Str) (q : Char) (rest : Str) (hq : q ∈ ['"', '\''])
    (hg : g = [] ∨ ∃ g2, g = '/' :: g2 ∧ ∀ c ∈ g2, c ∉ ['"', '\'']) :
    Regex.run (.cat optPath quoteClass) (g ++ q :: rest) some = some rest := by
  have hqc : Regex.run quoteClass (q :: rest) some = some rest :=
    (run_cls _ _ _ _).mpr ⟨q, rest, rfl, hq, rfl⟩
  rw [run_cat_eq, optPath, run_quest_eq, run_cat_eq]
  rcases hg with rfl | ⟨g2, rfl, hg2⟩
  · have hq2 : ¬ ('/' = q) := by
      rintro rfl
      simp at hq
    have hnp : ['/'].isPrefixOf ([] ++ q :: rest) = false := by
      simp [List.isPrefixOf, hq2]
    rw [run_lit_eq, hnp]
    exact hqc
  · have hloop := starLoop_ncls_complete ['"', '\''] (fun s2 => Regex.run quoteClass s2 some)
      rest q rest hq hqc g2 (g2 ++ q :: rest).length (by simp) hg2
    have hp : ['/'].isPrefixOf ('/' :: g2 ++ q :: rest) = true := by
      simp [List.isPrefixOf]
    rw [run_lit_eq, hp, if_pos rfl, run_star_eq]
    simp only [List.length_singleton, List.cons_append, List.drop_succ_cons, List.drop_zero]
    rw [hloop]

theorem attr_sound (X : Regex) (s : Str) (k : Str → Option Str) (r : Str)
    (h : Regex.run (.cat attrNames X) s k = some r) :
    ∃ A s2, A ∈ [['h', 'r', 'e', 'f'], ['s', 'r', 'c'], ['a', 'c', 't', 'i', 'o', 'n']] ∧
      s = A ++ s2 ∧ Regex.run X s2 k = some r := by
  rw [run_cat_eq, attrNames, run_alt_eq] at h
  cases h1 : Regex.run (.lit ['h', 'r', 'e', 'f']) s (fun s2 => Regex.run X s2 k) with
  | some r1 =>
    rw [h1] at h
    simp only [Option.some.injEq] at h
    subst h
    obtain ⟨s2, hs, hk⟩ := (run_lit _ _ _ _).mp h1
    exact ⟨_, s2, by simp, hs, hk⟩
  | none =>
    rw [h1] at h
    simp only [] at h
    rw [run_alt_eq] at h
    cases h2 : Regex.run (.lit ['s', 'r', 'c']) s (fun s2 => Regex.run X s2 k) with
    | some r1 =>
      rw [h2] at h
      simp only [Option.some.injEq] at h
      subst h
      obtain ⟨s2, hs, hk⟩ := (run_lit _ _ _ _).mp h2
      exact ⟨_, s2, by simp, hs, hk⟩
    | none =>
      rw [h2] at h
      obtain ⟨s2, hs, hk⟩ := (run_lit _ _ _ _).mp h
      exact ⟨_, s2, by simp, hs, hk⟩

theorem attr_complete (X : Regex) (A s2 : Str) (k : Str → Option Str) (r : Str)
    (hA : A ∈ [['h', 'r', 'e', 'f'], ['s', 'r', 'c'], ['a', 'c', 't', 'i', 'o', 'n']])
    (hk : Regex.run X s2 k = some r) :
    Regex.run (.cat attrNames X) (A ++ s2) k = some r := by
  have hlit : Regex.run (.lit A) (A ++ s2) (fun s3 => Regex.run X s3 k) = some r :=
    (run_lit _ _ _ _).mpr ⟨s2, rfl, hk⟩
  rw [run_cat_eq, attrNames, run_alt_eq]
  simp only [List.mem_cons, List.mem_singleton, List.not_mem_nil, or_false] at hA
  rcases hA with rfl | rfl | rfl
  · rw [hlit]
  · have h1 : Regex.run (.lit ['h', 'r', 'e', 'f']) (['s', 'r', 'c'] ++ s2)
        (fun s3 => Regex.run X s3 k) = none := by
      rw [run_lit_eq]; simp [List.isPrefixOf]
    rw [h1]
    simp only []
    rw [run_alt_eq, hlit]
  · have h1 : Regex.run (.lit ['h', 'r', 'e', 'f']) (['a', 'c', 't', 'i', 'o', 'n'] ++ s2)
        (fun s3 => Regex.run X s3 k) = none := by
      rw [run_lit_eq]; simp [List.isPrefixOf]
    have h2 : Regex.run (.lit ['s', 'r', 'c']) (['a', 'c', 't', 'i', 'o', 'n'] ++ s2)
        (fun s3 => Regex.run X s3 k) = none := by
      rw [run_lit_eq]; simp [List.isPrefixOf]
    rw [h1]
    simp only []
    rw [run_alt_eq, h2]
    simp only []
    exact hlit

theorem absolutePattern_sound (T s rest : Str)
    (h : Regex.run (absolutePattern T) s some = some rest) :
    ∃ A q g q2,
      A ∈ [['h', 'r', 'e', 'f'], ['s', 'r', 'c'], ['a', 'c', 't', 'i', 'o', 'n']] ∧
      q ∈ ['"', '\''] ∧ q2 ∈ ['"', '\''] ∧ pathPart g ∧
      s = A ++ '=' :: q :: (T ++ (g ++ q2 :: rest)) := by
  unfold absolutePattern at h
  obtain ⟨A, s2, hA, hs2, h2⟩ := attr_sound _ _ _ _ h
  rw [run_cat_eq] at h2
  obtain ⟨s3, hs3, h3⟩ := (run_lit _ _ _ _).mp h2
  rw [run_cat_eq] at h3
  obtain ⟨q, s4, hs4, hq, h4⟩ := (run_cls _ _ _ _).mp h3
  rw [run_cat_eq] at h4
  obtain ⟨s5, hs5, h5⟩ := (run_lit _ _ _ _).mp h4
  obtain ⟨g, q2, hs6, hq2, hg⟩ := tail_sound _ _ h5
  refine ⟨A, q, g, q2, hA, hq, hq2, hg, ?_⟩
  rw [hs2, hs3, hs4, hs5, hs6]
  rfl

theorem absolutePattern_complete (T A g rest : Str) (q q2 : Char)
    (hA : A ∈ [['h', 'r', 'e', 'f'], ['s', 'r', 'c'], ['a', 'c', 't', 'i', 'o', 'n']])
    (hq : q ∈ ['"', '\'']) (hq2 : q2 ∈ ['"', '\'']) (hg : pathPart g) :
    Regex.run (absolutePattern T) (A ++ '=' :: q :: (T ++ (g ++ q2 :: rest))) some =
      some rest := by
  unfold absolutePattern
  apply attr_complete _ _ _ _ _ hA
  rw [run_cat_eq]
  apply (run_lit _ _ _ _).mpr
  refine ⟨q :: (T ++ (g ++ q2 :: rest)), rfl, ?_⟩
  rw [run_cat_eq]
  apply (run_cls _ _ _ _).mpr
  refine ⟨q, _, rfl, hq, ?_⟩
  rw [run_cat_eq]
  apply (run_lit _ _ _ _).mpr
  exact ⟨_, rfl, tail_complete g q2 rest hq2 hg⟩

theorem protoRelativePattern_run (host s : Str) (k : Str → Option Str) :
    Regex.run (protoRelativePattern host) s k =
      Regex.run (absolutePattern (['/', '/'] ++ host)) s k := by
  unfold protoRelativePattern absolutePattern
  rw [run_cat_eq, run_cat_eq]
  congr 1
  funext s2
  rw [run_cat_eq, run_cat_eq]
  congr 1
  funext s3
  rw [run_cat_eq, run_cat_eq]
  congr 1
  funext s4
  rw [run_cat_eq, run_cat_eq]
  rw [run_lit_eq, run_lit_eq (['/', '/'] ++ host)]
  by_cases h1 : ['/', '/'].isPrefixOf s4 = true
  · obtain ⟨w, rfl⟩ := List.isPrefixOf_iff_prefix.mp h1
    rw [if_pos h1, List.drop_left]
    rw [run_cat_eq, run_lit_eq]
    by_cases h2 : host.isPrefixOf w = true
    · obtain ⟨w2, rfl⟩ := List.isPrefixOf_iff_prefix.mp h2
      have h3 : (['/', '/'] ++ host).isPrefixOf (['/', '/'] ++ (host ++ w2)) = true :=
        List.isPrefixOf_iff_prefix.mpr ⟨w2, by simp⟩
      rw [if_pos h2, if_pos h3, List.drop_left]
      have : ['/', '/'] ++ (host ++ w2) = (['/', '/'] ++ host) ++ w2 := by simp
      rw [this, List.drop_left]
    · have h3 : ¬ (['/', '/'] ++ host).isPrefixOf (['/', '/'] ++ w) = true := by
        intro h
        obtain ⟨w2, hw⟩ := List.isPrefixOf_iff_prefix.mp h
        apply h2
        apply List.isPrefixOf_iff_prefix.mpr
        refine ⟨w2, ?_⟩
        simpa using hw
      rw [if_neg h2, if_neg h3]
  · have h3 : ¬ (['/', '/'] ++ host).isPrefixOf s4 = true := by
      intro h
      obtain ⟨w2, hw⟩ := List.isPrefixOf_iff_prefix.mp h
      apply h1
      apply List.isPrefixOf_iff_prefix.mpr
      exact ⟨host ++ w2, by simpa using hw⟩
    rw [if_neg h1, if_neg h3]

theorem matchLen_none_of_run (re : Regex) (s : Str) (h : re.run s some = none) :
    re.matchLen s = none := by
  unfold Regex.matchLen
  rw [h]
  rfl

theorem run_of_matchLen (re : Regex) (s : Str) (n : Nat) (h : re.matchLen s = some n) :
    ∃ rest, re.run s some = some rest := by
  unfold Regex.matchLen at h
  cases hr : re.run s some with
  | none => rw [hr] at h; exact absurd h (by simp)
  | some rest => exact ⟨rest, rfl⟩

theorem replaceAllLoop_no_match (re : Regex) (repl : Str → Str) :
    ∀ (s : Str) (b : Bool), (∀ t, t <:+ s → re.matchLen t = none) →
      replaceAllLoop re repl s 0 b = s := by
  intro s
  induction s with
  | nil =>
    intro b h
    rw [replaceAllLoop, h [] (List.suffix_refl _)]
  | cons c cs ih =>
    intro b h
    rw [replaceAllLoop, h (c :: cs) (List.suffix_refl _)]
    simp only []
    rw [ih false (fun t ht => h t (ht.trans (List.suffix_cons c cs)))]

theorem replaceAllLoop_skip (re : Regex) (repl : Str → Str) :
    ∀ (s : Str), replaceAllLoop re repl s s.length true = [] := by
  intro s
  induction s with
  | nil =>
    rw [replaceAllLoop]
    cases re.matchLen [] <;> rfl
  | cons c cs ih =>
    rw [List.length_cons, replaceAllLoop]
    exact ih

theorem replaceAll_whole (re : Regex) (repl : Str → Str) (s : Str) (hs : s ≠ [])
    (h : re.run s some = some []) : ReplaceAllStringFunc re s repl = repl s := by
  unfold ReplaceAllStringFunc
  cases s with
  | nil => exact absurd rfl hs
  | cons c cs =>
    have hm : re.matchLen (c :: cs) = some (cs.length + 1) := by
      unfold Regex.matchLen
      rw [h]
      rfl
    rw [replaceAllLoop, hm]
    simp only []
    rw [replaceAllLoop_skip re repl cs, List.append_nil]
    have : List.take (cs.length + 1) (c :: cs) = c :: cs := by
      rw [← List.length_cons c cs, List.take_length]
    rw [this]

theorem protoRelativePattern_matchLen (host s : Str) :
    (protoRelativePattern host).matchLen s =
      (absolutePattern (['/', '/'] ++ host)).matchLen s := by
  unfold Regex.matchLen
  rw [protoRelativePattern_run]

theorem absolutePattern_no_attr (T html : Str)
    (h : ∀ A ∈ [['h', 'r', 'e', 'f'], ['s', 'r', 'c'], ['a', 'c', 't', 'i', 'o', 'n']],
      ∀ q ∈ ['"', '\''], ¬ (A ++ ['=', q]) <:+: html) :
    ∀ t, t <:+ html → (absolutePattern T).matchLen t = none := by
  intro t ht
  cases hm : (absolutePattern T).matchLen t with
  | none => rfl
  | some n =>
    exfalso
    obtain ⟨rest, hr⟩ := run_of_matchLen _ _ _ hm
    obtain ⟨A, q, g, q2, hA, hq, _, _, hs⟩ := absolutePattern_sound _ _ _ hr
    obtain ⟨pre, hpre⟩ := ht
    apply h A hA q hq
    refine ⟨pre, T ++ (g ++ q2 :: rest), ?_⟩
    rw [← hpre, hs]
    simp

/-- C7. Rewriting touches `href=`, `src=` and `action=` attribute values only:
an HTML text in which none of `href=`, `src=`, `action=` is followed by a
single or double quote is returned by `rewriteHTML` unchanged, for every rule
and mount path. -/
theorem rewriteHTML_without_quoted_attribute (pm : ProxyManager) (html : Str)
    (rule : ProxyRule) (pfx : Str)
    (h : ∀ A ∈ [['h', 'r', 'e', 'f'], ['s', 'r', 'c'], ['a', 'c', 't', 'i', 'o', 'n']],
      ∀ q ∈ ['"', '\''], ¬ (A ++ ['=', q]) <:+: html) :
    pm.rewriteHTML html rule pfx = html := by
  unfold ProxyManager.rewriteHTML
  cases urlParse rule.Target with
  | none => rfl
  | some u =>
    simp only []
    unfold ReplaceAllStringFunc
    rw [replaceAllLoop_no_match _ _ html false (absolutePattern_no_attr _ html h)]
    apply replaceAllLoop_no_match
    intro t ht
    rw [protoRelativePattern_matchLen]
    exact absolutePattern_no_attr _ html h t ht

theorem replaceAux_skip (old new post : Str) :
    ∀ o : Str, replaceAux old new (o ++ post) 0 o.length = post := by
  intro o
  induction o with
  | nil =>
    cases post with
    | nil => rw [List.nil_append, List.length_nil, replaceAux]
    | cons c cs => rw [List.nil_append, List.length_nil, replaceAux]
  | cons x o ih =>
    rw [List.cons_append, List.length_cons, replaceAux]
    · exact ih

theorem replace_first (old new post : Str) (hold : old ≠ []) :
    ∀ pre : Str,
      (∀ pre1 c pre2, pre = pre1 ++ c :: pre2 → ¬ old <+: (c :: pre2 ++ old ++ post)) →
      Replace (pre ++ old ++ post) old new 1 = pre ++ new ++ post := by
  intro pre hno
  unfold Replace
  by_cases hon : old = new
  · rw [if_pos (Or.inl hon), hon]
  · rw [if_neg (by simp [hon]), if_neg hold]
    induction pre with
    | nil =>
      cases old with
      | nil => exact absurd rfl hold
      | cons c o =>
        have hp : (c :: o).isPrefixOf (c :: (o ++ post)) = true :=
          List.isPrefixOf_iff_prefix.mpr ⟨post, rfl⟩
        rw [List.nil_append, List.nil_append, List.cons_append, replaceAux, if_pos hp]
        simp only [List.length_cons, Nat.add_sub_cancel]
        rw [replaceAux_skip]
    | cons c pre ih =>
      have hnp : ¬ (old.isPrefixOf (c :: (pre ++ old ++ post)) = true) := by
        intro hp
        exact hno [] c pre rfl (by simpa using List.isPrefixOf_iff_prefix.mp hp)
      have hrec := ih (fun pre1 c2 pre2 he => hno (c :: pre1) c2 pre2 (by rw [he]; rfl))
      simp only [List.cons_append, List.append_assoc] at hnp hrec ⊢
      rw [replaceAux, if_neg hnp, hrec]

theorem quote_split (qs : List Char) (X Y X2 Y2 : Str) (Q Q2 : Char)
    (hX : ∀ c ∈ X, c ∉ qs) (hQ2 : Q2 ∈ qs) (h : X ++ Q :: Y = X2 ++ Q2 :: Y2) :
    (X = X2 ∧ Q = Q2 ∧ Y = Y2) ∨ ∃ Z, Y = Z ++ Q2 :: Y2 ∧ X2 = X ++ Q :: Z := by
  rcases List.append_eq_append_iff.mp h with ⟨a, ha, hb⟩ | ⟨c, hc, hd⟩
  · cases a with
    | nil =>
      simp only [List.nil_append, List.cons.injEq] at hb
      left
      exact ⟨by simpa using ha.symm, hb.1, hb.2⟩
    | cons x a =>
      simp only [List.cons_append, List.cons.injEq] at hb
      right
      exact ⟨a, hb.2, by rw [ha, hb.1]⟩
  · cases c with
    | nil =>
      simp only [List.nil_append, List.cons.injEq] at hd
      left
      exact ⟨by simpa using hc, hd.1.symm, hd.2.symm⟩
    | cons x c =>
      simp only [List.cons_append, List.cons.injEq] at hd
      exfalso
      apply hX Q2 _ hQ2
      rw [hc, hd.1]
      simp

/-! ## What `url.Parse` tells about the target string -/

theorem schemeChar_ne (c x : Char) (hc : schemeChar c = true) (hx : schemeChar x = false) :
    c ≠ x := by
  rintro rfl
  rw [hc] at hx
  exact absurd hx (by simp)

theorem getSchemeLoop_inv (rawURL sch rest : Str) :
    ∀ (cs pre : Str) (i : Nat), rawURL = pre ++ cs → pre.length = i →
      (∀ c ∈ pre, schemeChar c = true) →
      getSchemeLoop rawURL cs i = some (sch, rest) →
      (sch = [] ∧ rest = rawURL) ∨
        (sch ≠ [] ∧ (∀ c ∈ sch, schemeChar c = true) ∧ rawURL = sch ++ ':' :: rest) := by
  intro cs
  induction cs with
  | nil =>
    intro pre i _ _ _ h
    rw [getSchemeLoop] at h
    simp only [Option.some.injEq, Prod.mk.injEq] at h
    exact Or.inl ⟨h.1.symm, h.2.symm⟩
  | cons c cs ih =>
    intro pre i hraw hlen hpre h
    have hraw2 : rawURL = (pre ++ [c]) ++ cs := by rw [hraw]; simp
    have hlen2 : (pre ++ [c]).length = i + 1 := by simp [hlen]
    rw [getSchemeLoop] at h
    by_cases h1 : isAlpha c = true
    · rw [if_pos h1] at h
      refine ih (pre ++ [c]) (i + 1) hraw2 hlen2 ?_ h
      intro x hx
      rcases List.mem_append.mp hx with hx | hx
      · exact hpre x hx
      · rw [List.mem_singleton.mp hx]; simp [schemeChar, h1]
    · rw [if_neg h1] at h
      by_cases h2 : (isDigit c || c == '+' || c == '-' || c == '.') = true
      · rw [if_pos h2] at h
        by_cases h3 : i = 0
        · rw [if_pos h3] at h
          simp only [Option.some.injEq, Prod.mk.injEq] at h
          exact Or.inl ⟨h.1.symm, h.2.symm⟩
        · rw [if_neg h3] at h
          refine ih (pre ++ [c]) (i + 1) hraw2 hlen2 ?_ h
          intro x hx
          rcases List.mem_append.mp hx with hx | hx
          · exact hpre x hx
          · rw [List.mem_singleton.mp hx]
            simp only [Bool.or_eq_true] at h2
            simp only [schemeChar, Bool.or_eq_true]
            tauto
      · rw [if_neg h2] at h
        by_cases h4 : (c == ':') = true
        · rw [if_pos h4] at h
          by_cases h3 : i = 0
          · rw [if_pos h3] at h
            exact absurd h (by simp)
          · rw [if_neg h3] at h
            simp only [Option.some.injEq, Prod.mk.injEq] at h
            have hc : c = ':' := by simpa using h4
            subst hc
            right
            have ht : List.take i rawURL = pre := by
              rw [hraw, ← hlen, List.take_left]
            have hd : List.drop (i + 1) rawURL = cs := by
              rw [hraw2, ← hlen2, List.drop_left]
            rw [ht] at h
            rw [hd] at h
            refine ⟨?_, ?_, ?_⟩
            · rw [← h.1]
              intro hn
              apply h3
              rw [← hlen, hn]
              rfl
            · rw [← h.1]; exact hpre
            · rw [← h.1, ← h.2]; exact hraw
        · rw [if_neg h4] at h
          simp only [Option.some.injEq, Prod.mk.injEq] at h
          exact Or.inl ⟨h.1.symm, h.2.symm⟩

theorem getScheme_inv (rawURL sch rest : Str) (h : getScheme rawURL = some (sch, rest)) :
    (sch = [] ∧ rest = rawURL) ∨
      (sch ≠ [] ∧ (∀ c ∈ sch, schemeChar c = true) ∧ rawURL = sch ++ ':' :: rest) :=
  getSchemeLoop_inv rawURL sch rest rawURL [] 0 rfl rfl (by simp) h

theorem cut_fst_prefix (s sep : Str) : (Cut s sep).1 <+: s := by
  unfold Cut
  cases Index s sep with
  | none => exact List.prefix_refl _
  | some i => exact List.take_prefix _ _

theorem setPath_fields (v u : URL) (p : Str) (h : setPath v p = some u) :
    u.Host = v.Host ∧ u.Scheme = v.Scheme := by
  unfold setPath at h
  cases hp : unescape p encodePath with
  | none => rw [hp] at h; exact absurd h (by simp)
  | some path =>
    rw [hp] at h
    simp only [Option.some.injEq] at h
    subst h
    exact ⟨rfl, rfl⟩

theorem setFragment_fields (v u : URL) (f : Str) (h : setFragment v f = some u) :
    u.Host = v.Host ∧ u.Scheme = v.Scheme := by
  unfold setFragment at h
  cases hp : unescape f encodeFragment with
  | none => rw [hp] at h; exact absurd h (by simp)
  | some frag =>
    rw [hp] at h
    simp only [Option.some.injEq] at h
    subst h
    exact ⟨rfl, rfl⟩

theorem parseAuthority_inv (authority : Str) (user : Option Userinfo) (host : Str)
    (h : parseAuthority authority = some (user, host)) :
    ∃ a hp, authority = a ++ hp ∧ parseHost hp = some host := by
  unfold parseAuthority at h
  simp only [] at h
  cases hi : LastIndex authority ['@'] with
  | none =>
    rw [hi] at h
    simp only [] at h
    cases hph : parseHost authority with
    | none => rw [hph] at h; exact absurd h (by simp)
    | some host2 =>
      rw [hph] at h
      simp only [Option.some.injEq, Prod.mk.injEq] at h
      exact ⟨[], authority, rfl, by rw [hph, h.2]⟩
  | some i =>
    rw [hi] at h
    simp only [] at h
    cases hph : parseHost (List.drop (i + 1) authority) with
    | none => rw [hph] at h; exact absurd h (by simp)
    | some host2 =>
      rw [hph] at h
      simp only [] at h
      refine ⟨List.take (i + 1) authority, List.drop (i + 1) authority,
        (List.take_append_drop _ _).symm, ?_⟩
      rw [hph]
      split at h
      · exact absurd h (by simp)
      split at h
      · split at h
        · exact absurd h (by simp)
        · simp only [Option.some.injEq, Prod.mk.injEq] at h
          rw [h.2]
      · split at h
        · exact absurd h (by simp)
        · split at h
          · exact absurd h (by simp)
          · simp only [Option.some.injEq, Prod.mk.injEq] at h
            rw [h.2]

theorem parse_inv (raw : Str) (u : URL) (h : parse raw false = some u) (hh : u.Host ≠ []) :
    ∃ sch rest0 a hp b, getScheme raw = some (sch, rest0) ∧ u.Scheme = ToLower sch ∧
      rest0 = '/' :: '/' :: (a ++ hp ++ b) ∧ parseHost hp = some u.Host := by
  unfold parse at h
  split at h
  · exact absurd h (by simp)
  split at h
  · exact absurd h (by simp)
  split at h
  · simp only [Option.some.injEq] at h
    subst h
    exact absurd rfl hh
  split at h
  · exact absurd h (by simp)
  rename_i sch rest0 hgs
  simp only [] at h
  have hrest : (if (HasSuffix rest0 ['?'] && Count rest0 ['?'] == 1) = true then
      List.take (List.length rest0 - 1) rest0 else (Cut rest0 ['?']).1) <+: rest0 := by
    split
    · exact List.take_prefix _ _
    · exact cut_fst_prefix _ _
  generalize (if (HasSuffix rest0 ['?'] && Count rest0 ['?'] == 1) = true then
      List.take (List.length rest0 - 1) rest0 else (Cut rest0 ['?']).1) = rest at h hrest
  generalize (HasSuffix rest0 ['?'] && Count rest0 ['?'] == 1) = fq at h
  generalize (if fq = true then [] else (Cut rest0 ['?']).2.1) = rq at h
  split at h
  · simp only [Option.some.injEq] at h
    subst h
    exact absurd rfl hh
  split at h
  · exact absurd h (by simp)
  split at h
  · exact absurd h (by simp)
  split at h
  · rename_i hauth
    have hpre : ['/', '/'] <+: rest := (hasPrefix_iff _ _).mp hauth.2
    obtain ⟨authority0, ha0⟩ := hpre
    have hdrop : List.drop 2 rest = authority0 := by rw [← ha0]; rfl
    rw [hdrop] at h
    have hauthority : (match Index authority0 ['/'] with
        | some i => List.take i authority0
        | none => authority0) <+: authority0 := by
      split
      · exact List.take_prefix _ _
      · exact List.prefix_refl _
    generalize (match Index authority0 ['/'] with
        | some i => List.take i authority0
        | none => authority0) = authority at h hauthority
    generalize (match Index authority0 ['/'] with
        | some i => List.drop i authority0
        | none => []) = rest2 at h
    split at h
    · exact absurd h (by simp)
    · rename_i user host hpa
      obtain ⟨hhost, hscheme⟩ := setPath_fields _ _ _ h
      simp only [] at hhost hscheme
      obtain ⟨a, hp, hsplit, hph⟩ := parseAuthority_inv _ _ _ hpa
      obtain ⟨y, hy⟩ := hauthority
      obtain ⟨x, hx⟩ := hrest
      refine ⟨sch, rest0, a, hp, y ++ x, hgs, hscheme, ?_, by rw [hhost]; exact hph⟩
      rw [← hx, ← ha0, ← hy, hsplit]
      simp
  · split at h
    · obtain ⟨hhost, _⟩ := setPath_fields _ _ _ h
      exact absurd hhost hh
    · obtain ⟨hhost, _⟩ := setPath_fields _ _ _ h
      exact absurd hhost hh

theorem parse_scheme (raw : Str) (u : URL) (h : parse raw false = some u)
    (hs : u.Scheme ≠ []) :
    ∃ sch rest0, getScheme raw = some (sch, rest0) ∧ u.Scheme = ToLower sch := by
  unfold parse at h
  split at h
  · exact absurd h (by simp)
  split at h
  · exact absurd h (by simp)
  split at h
  · simp only [Option.some.injEq] at h
    subst h
    exact absurd rfl hs
  split at h
  · exact absurd h (by simp)
  rename_i sch rest0 hgs
  refine ⟨sch, rest0, hgs, ?_⟩
  simp only [] at h
  generalize (if (HasSuffix rest0 ['?'] && Count rest0 ['?'] == 1) = true then
      List.take (List.length rest0 - 1) rest0 else (Cut rest0 ['?']).1) = rest at h
  generalize (HasSuffix rest0 ['?'] && Count rest0 ['?'] == 1) = fq at h
  generalize (if fq = true then [] else (Cut rest0 ['?']).2.1) = rq at h
  split at h
  · simp only [Option.some.injEq] at h
    subst h
    rfl
  split at h
  · exact absurd h (by simp)
  split at h
  · exact absurd h (by simp)
  split at h
  · split at h
    · exact absurd h (by simp)
    · exact (setPath_fields _ _ _ h).2
  · split at h
    · exact (setPath_fields _ _ _ h).2
    · exact (setPath_fields _ _ _ h).2

theorem urlParse_inv (T : Str) (u : URL) (h : urlParse T = some u) :
    ∃ raw x v, T = raw ++ x ∧ parse raw false = some v ∧ u.Host = v.Host ∧
      u.Scheme = v.Scheme := by
  unfold urlParse at h
  obtain ⟨x, hx⟩ := cut_fst_prefix T ['#']
  cases hp : parse (Cut T ['#']).1 false with
  | none => rw [hp] at h; exact absurd h (by simp)
  | some v =>
    rw [hp] at h
    simp only [] at h
    refine ⟨(Cut T ['#']).1, x, v, hx.symm, hp, ?_⟩
    split at h
    · simp only [Option.some.injEq] at h
      subst h
      exact ⟨rfl, rfl⟩
    · exact setFragment_fields _ _ _ h

theorem toLower_ne_nil (s : Str) (h : ToLower s ≠ []) : s ≠ [] := by
  rintro rfl
  exact h rfl

theorem urlParse_scheme (T : Str) (u : URL) (h : urlParse T = some u) (hs : u.Scheme ≠ []) :
    ∃ sch tl, sch ≠ [] ∧ (∀ c ∈ sch, schemeChar c = true) ∧ T = sch ++ ':' :: tl := by
  obtain ⟨raw, x, v, hT, hp, _, hsch⟩ := urlParse_inv T u h
  rw [hsch] at hs
  obtain ⟨sch, rest0, hgs, hv⟩ := parse_scheme raw v hp hs
  rw [hv] at hs
  rcases getScheme_inv _ _ _ hgs with ⟨h1, _⟩ | ⟨h1, h2, h3⟩
  · exact absurd h1 (toLower_ne_nil _ hs)
  · exact ⟨sch, rest0 ++ x, h1, h2, by rw [hT, h3]; simp⟩

theorem urlParse_host (T : Str) (u : URL) (h : urlParse T = some u) (hs : u.Scheme ≠ [])
    (hh : u.Host ≠ []) :
    ∃ sch a hp b, sch ≠ [] ∧ (∀ c ∈ sch, schemeChar c = true) ∧
      T = sch ++ ':' :: '/' :: '/' :: (a ++ hp ++ b) ∧ parseHost hp = some u.Host := by
  obtain ⟨raw, x, v, hT, hp, hhost, hsch⟩ := urlParse_inv T u h
  rw [hsch] at hs
  rw [hhost] at hh
  obtain ⟨sch, rest0, a, hpart, b, hgs, hv, hrest0, hph⟩ := parse_inv raw v hp hh
  rw [hv] at hs
  rcases getScheme_inv _ _ _ hgs with ⟨h1, _⟩ | ⟨h1, h2, h3⟩
  · exact absurd h1 (toLower_ne_nil _ hs)
  · refine ⟨sch, a, hpart, b ++ x, h1, h2, ?_, by rw [hhost]; exact hph⟩
    rw [hT, h3, hrest0]
    simp

theorem quoteCount_append (a b : Str) : quoteCount (a ++ b) = quoteCount a + quoteCount b := by
  unfold quoteCount
  exact List.countP_append _ _ _

theorem quoteCount_cons_quote (c : Char) (s : Str) (hc : c ∈ ['"', '\'']) :
    quoteCount (c :: s) = quoteCount s + 1 := by
  unfold quoteCount
  rw [List.countP_cons_of_pos]
  simpa using hc

theorem quoteCount_cons_other (c : Char) (s : Str) (hc : c ∉ ['"', '\'']) :
    quoteCount (c :: s) = quoteCount s := by
  unfold quoteCount
  rw [List.countP_cons_of_neg]
  simpa using hc

theorem quoteCount_le_cons (c : Char) (s : Str) : quoteCount s ≤ quoteCount (c :: s) := by
  by_cases hc : c ∈ ['"', '\'']
  · rw [quoteCount_cons_quote c s hc]; exact Nat.le_succ _
  · rw [quoteCount_cons_other c s hc]

theorem quoteCount_eq_zero (s : Str) (h : ∀ c ∈ s, c ∉ ['"', '\'']) : quoteCount s = 0 := by
  induction s with
  | nil => rfl
  | cons c s ih =>
    rw [quoteCount_cons_other c s (h c (List.mem_cons_self _ _))]
    exact ih (fun x hx => h x (List.mem_cons_of_mem _ hx))

theorem char_ofNat_toNat (v : Nat) : (Char.ofNat v).toNat = v ∨ (Char.ofNat v).toNat = 0 := by
  unfold Char.ofNat
  split
  · left; rfl
  · right; rfl

theorem ascii_ofNat_false (f : Char → Bool)
    (hf : ∀ c, f c = true → c.toNat < 0x80 ∧ c.toNat ≠ 0) (v : Nat) (hv : 0x80 ≤ v) :
    f (Char.ofNat v) = false := by
  rw [← Bool.not_eq_true]
  intro h
  obtain ⟨h1, h2⟩ := hf _ h
  rcases char_ofNat_toNat v with h3 | h3
  · omega
  · exact h2 h3

theorem ascii_runeError_false (f : Char → Bool)
    (hf : ∀ c, f c = true → c.toNat < 0x80 ∧ c.toNat ≠ 0) : f RuneError = false :=
  ascii_ofNat_false f hf 0xFFFD (by decide)

theorem runeSize_cases (s0 : Nat) (h : ¬ s0 < 0x80) (hsz : ¬ runeSize s0 = 0) :
    (runeSize s0 = 2 ∧ 0xC2 ≤ s0 ∧ s0 < 0xE0) ∨ (runeSize s0 = 3 ∧ 0xE0 ≤ s0 ∧ s0 < 0xF0) ∨
      (runeSize s0 = 4 ∧ 0xF0 ≤ s0 ∧ s0 < 0xF5) := by
  unfold runeSize at hsz ⊢
  by_cases h1 : s0 < 0xC2
  · rw [if_neg h, if_pos h1] at hsz
    exact absurd rfl hsz
  by_cases h2 : s0 < 0xE0
  · left
    rw [if_neg h, if_neg h1, if_pos h2]
    exact ⟨rfl, by omega, h2⟩
  by_cases h3 : s0 < 0xF0
  · right; left
    rw [if_neg h, if_neg h1, if_neg h2, if_pos h3]
    exact ⟨rfl, by omega, h3⟩
  by_cases h4 : s0 < 0xF5
  · right; right
    rw [if_neg h, if_neg h1, if_neg h2, if_neg h3, if_pos h4]
    exact ⟨rfl, by omega, h4⟩
  · rw [if_neg h, if_neg h1, if_neg h2, if_neg h3, if_neg h4] at hsz
    exact absurd rfl hsz

theorem accept_bounds (s0 s1 : Nat) (h : accept s0 s1 = true) :
    0x80 ≤ s1 ∧ s1 ≤ 0xBF ∧ (s0 = 0xE0 → 0xA0 ≤ s1) ∧ (s0 = 0xF0 → 0x90 ≤ s1) := by
  unfold accept at h
  simp only [Bool.and_eq_true, decide_eq_true_eq] at h
  have h1 := h.1
  have h2 : s1 ≤ 0xBF := by
    have := h.2
    by_cases hd : s0 = 0xED
    · rw [if_pos hd] at this; omega
    · rw [if_neg hd] at this
      by_cases hg : s0 = 0xF4
      · rw [if_pos hg] at this; omega
      · rw [if_neg hg] at this; exact this
  by_cases he : s0 = 0xE0
  · rw [if_pos he] at h1
    exact ⟨by omega, h2, fun _ => h1, fun hf => by omega⟩
  · rw [if_neg he] at h1
    by_cases hf : s0 = 0xF0
    · rw [if_pos hf] at h1
      exact ⟨by omega, h2, fun hx => absurd hx he, fun _ => h1⟩
    · rw [if_neg hf] at h1
      exact ⟨h1, h2, fun hx => absurd hx he, fun hx => absurd hx hf⟩

/-- What `DecodeRune` yields at a byte outside ASCII is no ASCII character, and
the further pieces it takes are bytes outside ASCII. -/
theorem decodeRune_inr (f : Char → Bool)
    (hf : ∀ c, f c = true → c.toNat < 0x80 ∧ c.toNat ≠ 0) (s0 : Nat) (r : List Piece)
    (h : ¬ s0 < 0x80) :
    f (DecodeRune (Sum.inr s0 :: r)).1 = false ∧
      ∀ q ∈ r.take ((DecodeRune (Sum.inr s0 :: r)).2 - 1),
        Sum.elim f (fun b => decide (b < 0x80) && f (Char.ofNat b)) q = false := by
  have hE := ascii_runeError_false f hf
  have hcont : ∀ b, isCont b = true → ¬ b < 0x80 := by
    intro b hb
    unfold isCont at hb
    simp only [Bool.and_eq_true, decide_eq_true_eq] at hb
    omega
  have hbyte : ∀ b, ¬ b < 0x80 →
      Sum.elim f (fun b => decide (b < 0x80) && f (Char.ofNat b)) (Sum.inr b : Piece) = false := by
    intro b hb
    simp [hb]
  rw [DecodeRune.eq_def]
  simp only []
  rw [if_neg h]
  split
  · exact ⟨hE, by simp⟩
  rename_i hsz
  have hcases := runeSize_cases s0 h hsz
  split
  · rename_i s1 r1
    split
    · exact ⟨hE, by simp⟩
    rename_i ha
    have ha2 : accept s0 s1 = true := by simpa using ha
    obtain ⟨hb1, hb2, hbE, hbF⟩ := accept_bounds s0 s1 ha2
    split
    · rename_i h2
      refine ⟨ascii_ofNat_false f hf _ ?_, ?_⟩
      · omega
      · intro q hq
        simp only [Nat.add_one_sub_one, List.take_succ_cons, List.take_zero,
          List.mem_singleton] at hq
        rw [hq]
        exact hbyte _ (by omega)
    rename_i h2
    split
    · rename_i s2 r2
      split
      · exact ⟨hE, by simp⟩
      rename_i hc2
      have hc2b : isCont s2 = true := by simpa using hc2
      split
      · rename_i h3
        refine ⟨ascii_ofNat_false f hf _ ?_, ?_⟩
        · by_cases he : s0 = 0xE0
          · have := hbE he
            omega
          · omega
        · intro q hq
          simp only [Nat.add_one_sub_one, List.take_succ_cons, List.take_zero,
            List.mem_cons, List.mem_singleton, List.not_mem_nil, or_false] at hq
          rcases hq with hq | hq
          · rw [hq]; exact hbyte _ (by omega)
          · rw [hq]; exact hbyte _ (hcont _ hc2b)
      rename_i h3
      split
      · rename_i s3 r3
        split
        · exact ⟨hE, by simp⟩
        rename_i hc3
        have hc3b : isCont s3 = true := by simpa using hc3
        refine ⟨ascii_ofNat_false f hf _ ?_, ?_⟩
        · by_cases he : s0 = 0xF0
          · have := hbF he
            omega
          · omega
        · intro q hq
          simp only [Nat.add_one_sub_one, List.take_succ_cons, List.take_zero,
            List.mem_cons, List.mem_singleton, List.not_mem_nil, or_false] at hq
          rcases hq with hq | hq | hq
          · rw [hq]; exact hbyte _ (by omega)
          · rw [hq]; exact hbyte _ (hcont _ hc2b)
          · rw [hq]; exact hbyte _ (hcont _ hc3b)
      · exact ⟨hE, by simp⟩
    · exact ⟨hE, by simp⟩
  · exact ⟨hE, by simp⟩

theorem piecesTextAux_skip :
    ∀ (l : List Piece) (k : Nat), piecesTextAux l k = piecesTextAux (l.drop k) 0 := by
  intro l
  induction l with
  | nil => intro k; cases k <;> simp [piecesTextAux]
  | cons p r ih =>
    intro k
    cases k with
    | zero => rfl
    | succ k => rw [piecesTextAux, ih k]; rfl

theorem piecesText_cons (p : Piece) (r : List Piece) :
    piecesText (p :: r) =
      (DecodeRune (p :: r)).1 :: piecesText (r.drop ((DecodeRune (p :: r)).2 - 1)) := by
  unfold piecesText
  rw [piecesTextAux, piecesTextAux_skip]

/-- Reading pieces as text keeps the ASCII characters: an ASCII character of
the text is a copied character or an ASCII byte, and the other way round. -/
theorem piecesText_countP (f : Char → Bool)
    (hf : ∀ c, f c = true → c.toNat < 0x80 ∧ c.toNat ≠ 0) :
    ∀ (n : Nat) (l : List Piece), l.length ≤ n →
      (piecesText l).countP f =
        l.countP (Sum.elim f (fun b => decide (b < 0x80) && f (Char.ofNat b))) := by
  intro n
  induction n with
  | zero =>
    intro l hl
    have : l = [] := List.eq_nil_of_length_eq_zero (Nat.le_zero.mp hl)
    subst this
    rfl
  | succ n ih =>
    intro l hl
    cases l with
    | nil => rfl
    | cons p r =>
      rw [piecesText_cons]
      have hr : r.length ≤ n := by simp only [List.length_cons] at hl; omega
      cases p with
      | inl c =>
        have hd : DecodeRune (Sum.inl c :: r) = (c, 1) := by rw [DecodeRune.eq_def]
        rw [hd]
        simp only [Nat.sub_self, List.drop_zero, List.countP_cons, Sum.elim_inl]
        rw [ih r hr]
      | inr s0 =>
        by_cases h : s0 < 0x80
        · have hd : DecodeRune (Sum.inr s0 :: r) = (Char.ofNat s0, 1) := by
            rw [DecodeRune.eq_def]
            simp only []
            rw [if_pos h]
          rw [hd]
          simp only [Nat.sub_self, List.drop_zero, List.countP_cons, Sum.elim_inr, h,
            decide_True, Bool.true_and]
          rw [ih r hr]
        · obtain ⟨h1, h2⟩ := decodeRune_inr f hf s0 r h
          have hsplit := List.take_append_drop ((DecodeRune (Sum.inr s0 :: r)).2 - 1) r
          have hz : (r.take ((DecodeRune (Sum.inr s0 :: r)).2 - 1)).countP
              (Sum.elim f (fun b => decide (b < 0x80) && f (Char.ofNat b))) = 0 := by
            rw [List.countP_eq_zero]
            intro q hq
            rw [h2 q hq]
            simp
          have hlen : (r.drop ((DecodeRune (Sum.inr s0 :: r)).2 - 1)).length ≤ n := by
            rw [List.length_drop]; omega
          rw [List.countP_cons, h1, ih _ hlen, List.countP_cons]
          conv_rhs => rw [← hsplit, List.countP_append, hz]
          simp [h]

theorem char_valid_toNat (c : Char) :
    c.toNat < 0xD800 ∨ (0xDFFF < c.toNat ∧ c.toNat < 0x110000) := c.valid

theorem decodeRune_encodeRune (c : Char) (r : List Piece) :
    DecodeRune ((EncodeRune c).map Sum.inr ++ r) = (c, RuneLen c) ∧
      (EncodeRune c).length = RuneLen c := by
  have hv := char_valid_toNat c
  have hc : Char.ofNat c.toNat = c := Char.ofNat_toNat c
  unfold EncodeRune RuneLen
  by_cases h1 : c.toNat < 0x80
  · rw [if_pos h1, if_pos h1]
    refine ⟨?_, rfl⟩
    rw [DecodeRune.eq_def]
    simp only [List.map_cons, List.map_nil, List.cons_append, List.nil_append]
    rw [if_pos h1, hc]
  rw [if_neg h1, if_neg h1]
  by_cases h2 : c.toNat < 0x800
  · rw [if_pos h2, if_pos h2]
    refine ⟨?_, rfl⟩
    rw [DecodeRune.eq_def]
    simp only [List.map_cons, List.map_nil, List.cons_append, List.nil_append]
    have hs : runeSize (0xC0 + c.toNat / 0x40) = 2 := by
      unfold runeSize
      rw [if_neg (by omega), if_neg (by omega), if_pos (by omega)]
    have ha : accept (0xC0 + c.toNat / 0x40) (0x80 + c.toNat % 0x40) = true := by
      unfold accept
      rw [if_neg (by omega), if_neg (by omega), if_neg (by omega), if_neg (by omega)]
      simp only [Bool.and_eq_true, decide_eq_true_eq]
      omega
    rw [if_neg (by omega), hs, ha]
    simp only [Bool.not_true, Bool.false_eq_true, if_false, Nat.le_refl, if_true,
      OfNat.ofNat_ne_zero]
    have : (0xC0 + c.toNat / 0x40) % 0x20 * 0x40 + (0x80 + c.toNat % 0x40) % 0x40 = c.toNat := by
      omega
    rw [this, hc]
  rw [if_neg h2, if_neg h2]
  by_cases h3 : c.toNat < 0x10000
  · rw [if_pos h3, if_pos h3]
    refine ⟨?_, rfl⟩
    rw [DecodeRune.eq_def]
    simp only [List.map_cons, List.map_nil, List.cons_append, List.nil_append]
    have hs : runeSize (0xE0 + c.toNat / 0x1000) = 3 := by
      unfold runeSize
      rw [if_neg (by omega), if_neg (by omega), if_neg (by omega), if_pos (by omega)]
    have ha : accept (0xE0 + c.toNat / 0x1000) (0x80 + c.toNat / 0x40 % 0x40) = true := by
      unfold accept
      simp only [Bool.and_eq_true, decide_eq_true_eq]
      constructor
      · split
        · omega
        · split <;> omega
      · split
        · omega
        · split <;> omega
    have hc2 : isCont (0x80 + c.toNat % 0x40) = true := by
      unfold isCont
      simp only [Bool.and_eq_true, decide_eq_true_eq]
      omega
    rw [if_neg (by omega), hs, ha, hc2]
    simp only [Bool.not_true, Bool.false_eq_true, if_false, Nat.le_refl, if_true,
      OfNat.ofNat_ne_zero, Nat.reduceLeDiff]
    have : (0xE0 + c.toNat / 0x1000) % 0x10 * 0x1000 + (0x80 + c.toNat / 0x40 % 0x40) % 0x40 * 0x40
        + (0x80 + c.toNat % 0x40) % 0x40 = c.toNat := by
      omega
    rw [this, hc]
  rw [if_neg h3, if_neg h3]
  refine ⟨?_, rfl⟩
  rw [DecodeRune.eq_def]
  simp only [List.map_cons, List.map_nil, List.cons_append, List.nil_append]
  have hs : runeSize (0xF0 + c.toNat / 0x40000) = 4 := by
    unfold runeSize
    rw [if_neg (by omega), if_neg (by omega), if_neg (by omega), if_neg (by omega),
      if_pos (by omega)]
  have ha : accept (0xF0 + c.toNat / 0x40000) (0x80 + c.toNat / 0x1000 % 0x40) = true := by
    unfold accept
    simp only [Bool.and_eq_true, decide_eq_true_eq]
    constructor
    · split
      · omega
      · split <;> omega
    · split
      · omega
      · split <;> omega
  have hc2 : isCont (0x80 + c.toNat / 0x40 % 0x40) = true := by
    unfold isCont
    simp only [Bool.and_eq_true, decide_eq_true_eq]
    omega
  have hc3 : isCont (0x80 + c.toNat % 0x40) = true := by
    unfold isCont
    simp only [Bool.and_eq_true, decide_eq_true_eq]
    omega
  rw [if_neg (by omega), hs, ha, hc2, hc3]
  simp only [Bool.not_true, Bool.false_eq_true, if_false, Nat.le_refl, if_true,
    OfNat.ofNat_ne_zero, Nat.reduceLeDiff]
  have : (0xF0 + c.toNat / 0x40000) % 0x08 * 0x40000 +
      (0x80 + c.toNat / 0x1000 % 0x40) % 0x40 * 0x1000 +
      (0x80 + c.toNat / 0x40 % 0x40) % 0x40 * 0x40 + (0x80 + c.toNat % 0x40) % 0x40 = c.toNat := by
    omega
  rw [this, hc]


theorem encodeRune_head (c : Char) :
    ∃ fb t, EncodeRune c = fb :: t ∧ (fb < 0x80 ∨ 0xC0 ≤ fb) := by
  unfold EncodeRune
  split
  · exact ⟨_, _, rfl, by omega⟩
  split
  · exact ⟨_, _, rfl, by omega⟩
  split
  · exact ⟨_, _, rfl, by omega⟩
  · exact ⟨_, _, rfl, by omega⟩

theorem accept_false (s0 fb : Nat) (h : fb < 0x80 ∨ 0xC0 ≤ fb) : accept s0 fb = false := by
  rw [← Bool.not_eq_true]
  intro ha
  unfold accept at ha
  simp only [Bool.and_eq_true, decide_eq_true_eq] at ha
  obtain ⟨h1, h2⟩ := ha
  split at h1 <;> split at h2 <;> first | omega | (split at h1 <;> split at h2 <;> omega) | (split at h1 <;> omega) | (split at h2 <;> omega)

theorem isCont_false (fb : Nat) (h : fb < 0x80 ∨ 0xC0 ≤ fb) : isCont fb = false := by
  rw [← Bool.not_eq_true]
  intro ha
  unfold isCont at ha
  simp only [Bool.and_eq_true, decide_eq_true_eq] at ha
  omega

/-- `DecodeRune` at a byte reads the pieces that follow as it reads their
bytes, and the pieces it takes are bytes. -/
theorem decodeRune_bytes (s0 : Nat) (r : List Piece) :
    DecodeRune (Sum.inr s0 :: (pieceBytes r).map Sum.inr) = DecodeRune (Sum.inr s0 :: r) ∧
      ((pieceBytes r).map Sum.inr).drop ((DecodeRune (Sum.inr s0 :: r)).2 - 1) =
        (pieceBytes (r.drop ((DecodeRune (Sum.inr s0 :: r)).2 - 1))).map
          (Sum.inr : Nat → Piece) := by
  rcases r with _ | ⟨c | s1, r1⟩
  · constructor
    · rfl
    · simp [pieceBytes]
  · obtain ⟨fb, t, hfb, hnc⟩ := encodeRune_head c
    have h1 : DecodeRune (Sum.inr s0 :: Sum.inl c :: r1) =
        if s0 < 0x80 then (Char.ofNat s0, 1) else (RuneError, 1) := by
      rw [DecodeRune.eq_def]
      simp only []
      split_ifs <;> rfl
    have h2 : DecodeRune (Sum.inr s0 :: (pieceBytes (Sum.inl c :: r1)).map Sum.inr) =
        if s0 < 0x80 then (Char.ofNat s0, 1) else (RuneError, 1) := by
      rw [pieceBytes, hfb, DecodeRune.eq_def]
      simp only [List.cons_append, List.map_cons, accept_false s0 fb hnc, Bool.not_false, if_true]
      split_ifs <;> rfl
    rw [h1, h2]
    refine ⟨rfl, ?_⟩
    split_ifs <;> simp
  · rcases r1 with _ | ⟨c | s2, r2⟩
    · constructor
      · rfl
      · rw [DecodeRune.eq_def]
        simp only []
        split_ifs <;> simp [pieceBytes]
    · obtain ⟨fb, t, hfb, hnc⟩ := encodeRune_head c
      have h1 : DecodeRune (Sum.inr s0 :: Sum.inr s1 :: Sum.inl c :: r2) =
          DecodeRune [Sum.inr s0, Sum.inr s1] := by
        rw [DecodeRune.eq_def, DecodeRune.eq_def]
      have h2 : DecodeRune (Sum.inr s0 ::
            (pieceBytes (Sum.inr s1 :: Sum.inl c :: r2)).map Sum.inr) =
          DecodeRune [Sum.inr s0, Sum.inr s1] := by
        rw [pieceBytes, pieceBytes, hfb, DecodeRune.eq_def, DecodeRune.eq_def]
        simp only [List.cons_append, List.map_cons, isCont_false fb hnc, Bool.not_false, if_true]
      rw [h1, h2]
      refine ⟨rfl, ?_⟩
      rw [DecodeRune.eq_def]
      simp only []
      split_ifs <;> simp [pieceBytes]
    · rcases r2 with _ | ⟨c | s3, r3⟩
      · constructor
        · rfl
        · rw [DecodeRune.eq_def]
          simp only []
          split_ifs <;> simp [pieceBytes]
      · obtain ⟨fb, t, hfb, hnc⟩ := encodeRune_head c
        have h1 : DecodeRune (Sum.inr s0 :: Sum.inr s1 :: Sum.inr s2 :: Sum.inl c :: r3) =
            DecodeRune [Sum.inr s0, Sum.inr s1, Sum.inr s2] := by
          rw [DecodeRune.eq_def, DecodeRune.eq_def]
        have h2 : DecodeRune (Sum.inr s0 ::
              (pieceBytes (Sum.inr s1 :: Sum.inr s2 :: Sum.inl c :: r3)).map Sum.inr) =
            DecodeRune [Sum.inr s0, Sum.inr s1, Sum.inr s2] := by
          rw [pieceBytes, pieceBytes, pieceBytes, hfb, DecodeRune.eq_def, DecodeRune.eq_def]
          simp only [List.cons_append, List.map_cons, isCont_false fb hnc, Bool.not_false, if_true]
        rw [h1, h2]
        refine ⟨rfl, ?_⟩
        rw [DecodeRune.eq_def]
        simp only []
        split_ifs <;> simp [pieceBytes]
      · constructor
        · rw [pieceBytes, pieceBytes, pieceBytes]
          simp only [List.map_cons]
          rw [DecodeRune.eq_def, DecodeRune.eq_def]
        · rw [DecodeRune.eq_def]
          simp only []
          split_ifs <;> simp [pieceBytes]

theorem piecesText_inl (c : Char) (r : List Piece) :
    piecesText (Sum.inl c :: r) = c :: piecesText r := by
  rw [piecesText_cons]
  have hd : DecodeRune (Sum.inl c :: r) = (c, 1) := by rw [DecodeRune.eq_def]
  rw [hd]
  rfl

theorem piecesText_encodeRune (c : Char) (r : List Piece) :
    piecesText ((EncodeRune c).map Sum.inr ++ r) = c :: piecesText r := by
  obtain ⟨hd, hl⟩ := decodeRune_encodeRune c r
  obtain ⟨fb, t, hfb, _⟩ := encodeRune_head c
  rw [hfb] at hd hl ⊢
  simp only [List.map_cons, List.cons_append] at hd ⊢
  rw [piecesText_cons, hd]
  simp only [List.length_cons] at hl
  have : RuneLen c - 1 = (t.map (Sum.inr : Nat → Piece)).length := by
    rw [List.length_map]; omega
  simp only []
  rw [this, List.drop_left]

/-- The text of the pieces is the text of their bytes: a copied character
reads as the bytes of its UTF-8 sequence do. -/
theorem piecesText_bytes :
    ∀ (n : Nat) (l : List Piece), l.length ≤ n →
      piecesText ((pieceBytes l).map Sum.inr) = piecesText l := by
  intro n
  induction n with
  | zero =>
    intro l hl
    have : l = [] := List.eq_nil_of_length_eq_zero (Nat.le_zero.mp hl)
    subst this
    rfl
  | succ n ih =>
    intro l hl
    cases l with
    | nil => rfl
    | cons p r =>
      have hr : r.length ≤ n := by simp only [List.length_cons] at hl; omega
      cases p with
      | inl c =>
        rw [pieceBytes, List.map_append, piecesText_encodeRune, piecesText_inl, ih r hr]
      | inr s0 =>
        obtain ⟨h1, h2⟩ := decodeRune_bytes s0 r
        rw [pieceBytes, List.map_cons, piecesText_cons, piecesText_cons, h1, h2]
        rw [ih _ (by rw [List.length_drop]; omega)]

/-- Reading the UTF-8 sequences of a text gives the text back. -/
theorem piecesText_utf8 (s : Str) :
    piecesText ((pieceBytes (s.map Sum.inl)).map Sum.inr) = s := by
  rw [piecesText_bytes _ _ (Nat.le_refl _)]
  induction s with
  | nil => rfl
  | cons c cs ih => rw [List.map_cons, piecesText_inl, ih]

/-- The byte length `len` of a text is the number of bytes of its UTF-8
sequences. -/
theorem len_pieceBytes (s : Str) : len s = (pieceBytes (s.map Sum.inl)).length := by
  induction s with
  | nil => rfl
  | cons c cs ih =>
    rw [List.map_cons, pieceBytes, List.length_append, ← ih,
      (decodeRune_encodeRune c []).2]
    unfold len
    rw [List.map_cons, List.sum_cons]

/-- What `url.unescape` returns is the text of the bytes it writes. -/
theorem unescape_bytes (s : Str) (mode : encoding) :
    unescape s mode =
      (unescapePieces s mode).map (fun l => piecesText ((pieceBytes l).map Sum.inr)) := by
  unfold unescape
  cases unescapePieces s mode with
  | none => rfl
  | some l => simp only [Option.map_some', piecesText_bytes _ _ (Nat.le_refl _)]

theorem char_ofNat_ne (v : Nat) (x : Char) (hv : 128 ≤ v) (hx : x.toNat < 128)
    (hx0 : x.toNat ≠ 0) : Char.ofNat v ≠ x := by
  intro he
  rcases char_ofNat_toNat v with h | h
  · rw [he] at h; omega
  · rw [he] at h; exact hx0 h

/-- The byte a `%XY` escape decodes to in host mode is no quote and no slash. -/
theorem host_escape_char (a b : Char)
    (h : ¬ (unhex a < 8 ∧ ¬ (a = '2' ∧ b = '5'))) :
    Char.ofNat (unhex a * 16 + unhex b) ∉ ['"', '\''] ∧
      Char.ofNat (unhex a * 16 + unhex b) ≠ '/' := by
  by_cases h25 : a = '2' ∧ b = '5'
  · obtain ⟨rfl, rfl⟩ := h25
    decide
  · have h8 : 8 ≤ unhex a := by
      by_contra hlt
      exact h ⟨by omega, h25⟩
    have hv : 128 ≤ unhex a * 16 + unhex b := by omega
    refine ⟨?_, char_ofNat_ne _ _ hv (by decide) (by decide)⟩
    intro hm
    simp only [List.mem_cons, List.mem_singleton, List.not_mem_nil, or_false] at hm
    rcases hm with hm | hm
    · exact char_ofNat_ne _ _ hv (by decide) (by decide) hm
    · exact char_ofNat_ne _ _ hv (by decide) (by decide) hm

theorem unescapePieces_pct (a b : Char) (rest2 : Str) (mode : encoding) :
    unescapePieces ('%' :: a :: b :: rest2) mode =
      if !ishex a || !ishex b then none
      else if mode = encodeHost ∧ unhex a < 8 ∧ ¬(a = '2' ∧ b = '5') then none
      else if mode = encodeZone ∧ ¬(a = '2' ∧ b = '5') ∧
          Char.ofNat (unhex a * 16 + unhex b) ≠ ' ' ∧
          shouldEscape (Char.ofNat (unhex a * 16 + unhex b)) encodeHost then none
      else (unescapePieces rest2 mode).map (Sum.inr (unhex a * 16 + unhex b) :: ·) := by
  rw [unescapePieces]
  rfl

theorem unescapePieces_pct_one (a : Char) (mode : encoding) :
    unescapePieces ['%', a] mode = none := by
  rw [unescapePieces.eq_def]
  rfl

theorem unescapePieces_pct_nil (mode : encoding) : unescapePieces ['%'] mode = none := by
  rw [unescapePieces.eq_def]
  rfl

theorem unescapePieces_lit (c : Char) (rest : Str) (mode : encoding) (hc : c ≠ '%') :
    unescapePieces (c :: rest) mode =
      if c = '+' then
        (unescapePieces rest mode).map
          (Sum.inl (if mode = encodeQueryComponent then ' ' else '+') :: ·)
      else if (mode = encodeHost ∨ mode = encodeZone) ∧ c.toNat < 0x80 ∧
          shouldEscape c encodeHost then none
      else (unescapePieces rest mode).map (Sum.inl c :: ·) := by
  rw [unescapePieces.eq_def]
  simp only [hc, if_false]

/-- In host mode the pieces hold no more quotes than the input. -/
theorem unescapePieces_host_quotes :
    ∀ (n : Nat) (s : Str) (l : List Piece), s.length ≤ n →
      unescapePieces s encodeHost = some l →
      l.countP (Sum.elim (fun c => decide (c ∈ ['"', '\'']))
        (fun b => decide (b < 0x80) && decide (Char.ofNat b ∈ ['"', '\'']))) ≤ quoteCount s := by
  intro n
  induction n with
  | zero =>
    intro s l hn hu
    have : s = [] := List.eq_nil_of_length_eq_zero (Nat.le_zero.mp hn)
    subst this
    rw [unescapePieces] at hu
    simp only [Option.some.injEq] at hu
    subst hu
    exact Nat.le_refl _
  | succ n ih =>
    intro s l hn hu
    cases s with
    | nil =>
      rw [unescapePieces] at hu
      simp only [Option.some.injEq] at hu
      subst hu
      exact Nat.le_refl _
    | cons c rest =>
      by_cases hc : c = '%'
      · subst hc
        cases rest with
        | nil => rw [unescapePieces_pct_nil] at hu; exact absurd hu (by simp)
        | cons a r =>
          cases r with
          | nil => rw [unescapePieces_pct_one] at hu; exact absurd hu (by simp)
          | cons b rest2 =>
            rw [unescapePieces_pct] at hu
            split at hu
            · exact absurd hu (by simp)
            split at hu
            · exact absurd hu (by simp)
            split at hu
            · exact absurd hu (by simp)
            rename_i _ hhost _
            cases hr : unescapePieces rest2 encodeHost with
            | none => rw [hr] at hu; exact absurd hu (by simp)
            | some l2 =>
              rw [hr] at hu
              simp only [Option.map_some', Option.some.injEq] at hu
              subst hu
              have hle := ih rest2 l2 (by simp only [List.length_cons] at hn; omega) hr
              have hch := (host_escape_char a b (by
                intro hx; exact hhost ⟨rfl, hx.1, hx.2⟩)).1
              rw [List.countP_cons_of_neg]
              · exact hle.trans ((quoteCount_le_cons b rest2).trans
                  ((quoteCount_le_cons a _).trans (quoteCount_le_cons '%' _)))
              · simp only [Sum.elim_inr, Bool.and_eq_true, decide_eq_true_eq, not_and]
                exact fun _ => hch
      · rw [unescapePieces_lit c rest _ hc] at hu
        split at hu
        · cases hr : unescapePieces rest encodeHost with
          | none => rw [hr] at hu; exact absurd hu (by simp)
          | some l2 =>
            rw [hr] at hu
            simp only [Option.map_some', Option.some.injEq] at hu
            subst hu
            have hle := ih rest l2 (by simp only [List.length_cons] at hn; omega) hr
            rename_i hplus
            subst hplus
            rw [List.countP_cons_of_neg, quoteCount_cons_other _ _ (by decide)]
            · exact hle
            · simp
        · split at hu
          · exact absurd hu (by simp)
          · cases hr : unescapePieces rest encodeHost with
            | none => rw [hr] at hu; exact absurd hu (by simp)
            | some l2 =>
              rw [hr] at hu
              simp only [Option.map_some', Option.some.injEq] at hu
              subst hu
              have hle := ih rest l2 (by simp only [List.length_cons] at hn; omega) hr
              by_cases hq : c ∈ ['"', '\'']
              · rw [List.countP_cons_of_pos, quoteCount_cons_quote _ _ hq]
                · omega
                · simpa using hq
              · rw [List.countP_cons_of_neg, quoteCount_cons_other _ _ hq]
                · exact hle
                · simpa using hq

/-- In host and zone mode the pieces hold no slash. -/
theorem unescapePieces_no_slash (mode : encoding)
    (hmode : mode = encodeHost ∨ mode = encodeZone) :
    ∀ (n : Nat) (s : Str) (l : List Piece), s.length ≤ n →
      unescapePieces s mode = some l →
      l.countP (Sum.elim (fun c => decide (c = '/'))
        (fun b => decide (b < 0x80) && decide (Char.ofNat b = '/'))) = 0 := by
  intro n
  induction n with
  | zero =>
    intro s l hn hu
    have : s = [] := List.eq_nil_of_length_eq_zero (Nat.le_zero.mp hn)
    subst this
    rw [unescapePieces] at hu
    simp only [Option.some.injEq] at hu
    subst hu
    rfl
  | succ n ih =>
    intro s l hn hu
    cases s with
    | nil =>
      rw [unescapePieces] at hu
      simp only [Option.some.injEq] at hu
      subst hu
      rfl
    | cons c rest =>
      by_cases hc : c = '%'
      · subst hc
        cases rest with
        | nil => rw [unescapePieces_pct_nil] at hu; exact absurd hu (by simp)
        | cons a r =>
          cases r with
          | nil => rw [unescapePieces_pct_one] at hu; exact absurd hu (by simp)
          | cons b rest2 =>
            rw [unescapePieces_pct] at hu
            split at hu
            · exact absurd hu (by simp)
            split at hu
            · exact absurd hu (by simp)
            split at hu
            · exact absurd hu (by simp)
            rename_i _ hhost hzone
            cases hr : unescapePieces rest2 mode with
            | none => rw [hr] at hu; exact absurd hu (by simp)
            | some l2 =>
              rw [hr] at hu
              simp only [Option.map_some', Option.some.injEq] at hu
              subst hu
              have hrec := ih rest2 l2 (by simp only [List.length_cons] at hn; omega) hr
              have hch : Char.ofNat (unhex a * 16 + unhex b) ≠ '/' := by
                rcases hmode with hm | hm
                · exact (host_escape_char a b (by
                    intro hx; exact hhost ⟨hm, hx.1, hx.2⟩)).2
                · intro he
                  apply hzone
                  refine ⟨hm, ?_, ?_, ?_⟩
                  · rintro ⟨rfl, rfl⟩
                    revert he
                    decide
                  · rw [he]; decide
                  · rw [he]; decide
              rw [List.countP_cons_of_neg]
              · exact hrec
              · simp only [Sum.elim_inr, Bool.and_eq_true, decide_eq_true_eq, not_and]
                exact fun _ => hch
      · rw [unescapePieces_lit c rest _ hc] at hu
        split at hu
        · cases hr : unescapePieces rest mode with
          | none => rw [hr] at hu; exact absurd hu (by simp)
          | some l2 =>
            rw [hr] at hu
            simp only [Option.map_some', Option.some.injEq] at hu
            subst hu
            have hrec := ih rest l2 (by simp only [List.length_cons] at hn; omega) hr
            rw [List.countP_cons_of_neg]
            · exact hrec
            · simp only [Sum.elim_inl, decide_eq_true_eq]
              split <;> decide
        · split at hu
          · exact absurd hu (by simp)
          · rename_i hlit
            cases hr : unescapePieces rest mode with
            | none => rw [hr] at hu; exact absurd hu (by simp)
            | some l2 =>
              rw [hr] at hu
              simp only [Option.map_some', Option.some.injEq] at hu
              subst hu
              have hrec := ih rest l2 (by simp only [List.length_cons] at hn; omega) hr
              rw [List.countP_cons_of_neg]
              · exact hrec
              · simp only [Sum.elim_inl, decide_eq_true_eq]
                intro hsl
                apply hlit
                rw [hsl]
                exact ⟨hmode, by decide, by decide⟩

theorem unescape_host_quoteCount (s h : Str) (hu : unescape s encodeHost = some h) :
    quoteCount h ≤ quoteCount s := by
  unfold unescape at hu
  cases hp : unescapePieces s encodeHost with
  | none => rw [hp] at hu; exact absurd hu (by simp)
  | some l =>
    rw [hp] at hu
    simp only [Option.map_some', Option.some.injEq] at hu
    subst hu
    unfold quoteCount
    rw [piecesText_countP (fun c => decide (c ∈ ['"', '\''])) (by
      intro c hc
      simp only [List.mem_cons, List.mem_singleton, List.not_mem_nil, or_false,
        decide_eq_true_eq] at hc
      rcases hc with rfl | rfl <;> decide) _ l (Nat.le_refl _)]
    exact unescapePieces_host_quotes _ s l (Nat.le_refl _) hp

theorem unescape_host_no_slash (mode : encoding)
    (hmode : mode = encodeHost ∨ mode = encodeZone) (s h : Str)
    (hu : unescape s mode = some h) : '/' ∉ h := by
  unfold unescape at hu
  cases hp : unescapePieces s mode with
  | none => rw [hp] at hu; exact absurd hu (by simp)
  | some l =>
    rw [hp] at hu
    simp only [Option.map_some', Option.some.injEq] at hu
    subst hu
    have h0 := unescapePieces_no_slash mode hmode _ s l (Nat.le_refl _) hp
    rw [← piecesText_countP (fun c => decide (c = '/')) (by
      intro c hc
      simp only [decide_eq_true_eq] at hc
      subst hc
      decide) _ l (Nat.le_refl _)] at h0
    intro hmem
    have hpos : 0 < (piecesText l).countP (fun c => decide (c = '/')) :=
      List.countP_pos_iff.mpr ⟨'/', hmem, by simp⟩
    omega

/-- In host mode a leading `]` is copied. -/
theorem unescape_bracket (b h : Str) (hu : unescape (']' :: b) encodeHost = some h) :
    ∃ t, h = ']' :: t := by
  unfold unescape at hu
  rw [unescapePieces_lit _ _ _ (by decide), if_neg (by decide)] at hu
  split at hu
  · exact absurd hu (by simp)
  · cases hr : unescapePieces b encodeHost with
    | none => rw [hr] at hu; exact absurd hu (by simp)
    | some l =>
      rw [hr] at hu
      simp only [Option.map_some', Option.some.injEq] at hu
      refine ⟨piecesText l, ?_⟩
      rw [← hu, piecesText_cons]
      rfl


theorem lastIndex_char (c : Char) :
    ∀ (s : Str) (i : Nat), LastIndex s [c] = some i →
      ∃ a b, s = a ++ c :: b ∧ a.length = i := by
  intro s
  induction s with
  | nil =>
    intro i h
    rw [LastIndex] at h
    simp at h
  | cons x cs ih =>
    intro i h
    rw [LastIndex] at h
    cases hl : LastIndex cs [c] with
    | some j =>
      rw [hl] at h
      simp only [Option.some.injEq] at h
      obtain ⟨a, b, hs, ha⟩ := ih j hl
      exact ⟨x :: a, b, by rw [hs]; rfl, by rw [← h, ← ha]; rfl⟩
    | none =>
      rw [hl] at h
      simp only [] at h
      split at h
      · rename_i hp
        simp only [Option.some.injEq] at h
        obtain ⟨w, hw⟩ := List.isPrefixOf_iff_prefix.mp hp
        simp only [List.singleton_append, List.cons.injEq] at hw
        exact ⟨[], cs, by rw [hw.1]; rfl, by rw [← h]; rfl⟩
      · exact absurd h (by simp)

theorem validOptionalPort_no_quote (port : Str) (h : validOptionalPort port = true) :
    ∀ x ∈ port, x ∉ ['"', '\''] := by
  unfold validOptionalPort at h
  cases port with
  | nil => simp
  | cons c ds =>
    simp only [Bool.and_eq_true, beq_iff_eq, List.all_eq_true] at h
    intro x hx
    rcases List.mem_cons.mp hx with rfl | hx
    · rw [h.1]; decide
    · have hd := h.2 x hx
      intro hq
      simp only [List.mem_cons, List.mem_singleton, List.not_mem_nil, or_false] at hq
      rcases hq with rfl | rfl
      · exact absurd hd (by decide)
      · exact absurd hd (by decide)

theorem parseHost_facts (hp host : Str) (h : parseHost hp = some host) :
    '/' ∉ host ∧
      (quoteCount host ≤ quoteCount hp ∨
        ∀ h0 Q h2, host = h0 ++ Q :: h2 → Q ∈ ['"', '\''] → ']' ∈ h2) := by
  have hplain : ∀ s r, unescape s encodeHost = some r →
      '/' ∉ r ∧ quoteCount r ≤ quoteCount s := fun s r hu =>
    ⟨unescape_host_no_slash encodeHost (Or.inl rfl) s r hu, unescape_host_quoteCount s r hu⟩
  unfold parseHost at h
  split at h
  · split at h
    · exact absurd h (by simp)
    · rename_i i hli
      split at h
      · exact absurd h (by simp)
      · rename_i hport
        split at h
        · rename_i zone hz
          split at h
          · exact absurd h (by simp)
          rename_i host1 h1
          split at h
          · exact absurd h (by simp)
          rename_i host2 h2
          split at h
          · exact absurd h (by simp)
          rename_i host3 h3
          simp only [Option.some.injEq] at h
          subst h
          have hs1 := unescape_host_no_slash encodeHost (Or.inl rfl) _ _ h1
          have hs2 := unescape_host_no_slash encodeZone (Or.inr rfl) _ _ h2
          have hs3 := unescape_host_no_slash encodeHost (Or.inl rfl) _ _ h3
          constructor
          · intro hm
            rcases List.mem_append.mp hm with hm | hm
            · rcases List.mem_append.mp hm with hm | hm
              · exact hs1 hm
              · exact hs2 hm
            · exact hs3 hm
          · right
            obtain ⟨a, b, hab, hlen⟩ := lastIndex_char ']' hp i hli
            have hd : List.drop i hp = ']' :: b := by
              rw [hab, ← hlen, List.drop_left]
            have hd1 : List.drop (i + 1) hp = b := by
              have : hp = (a ++ [']']) ++ b := by rw [hab]; simp
              rw [this, ← hlen]
              have hl : (a ++ [']']).length = a.length + 1 := by simp
              rw [← hl, List.drop_left]
            rw [hd] at h3
            rw [hd1] at hport
            have hport2 : validOptionalPort b = true := by simpa using hport
            have hq3 : quoteCount host3 = 0 := by
              have hle := unescape_host_quoteCount _ _ h3
              have hz0 : quoteCount (']' :: b) = 0 := by
                rw [quoteCount_cons_other _ _ (by decide)]
                exact quoteCount_eq_zero b (validOptionalPort_no_quote b hport2)
              omega
            have hb3 : ∃ t, host3 = ']' :: t := unescape_bracket b host3 h3
            intro h0 Q hh2 hsplit hQ
            rcases List.append_eq_append_iff.mp hsplit with ⟨x, hx1, hx2⟩ | ⟨y, hy1, hy2⟩
            · exfalso
              have hc : quoteCount host3 = quoteCount x + (quoteCount hh2 + 1) := by
                rw [hx2, quoteCount_append, quoteCount_cons_quote _ _ hQ]
              omega
            · cases y with
              | nil =>
                exfalso
                simp only [List.nil_append] at hy2
                obtain ⟨t, ht⟩ := hb3
                rw [ht] at hy2
                simp only [List.cons.injEq] at hy2
                rw [hy2.1] at hQ
                exact absurd hQ (by decide)
              | cons y0 y =>
                simp only [List.cons_append, List.cons.injEq] at hy2
                rw [hy2.2]
                obtain ⟨t, ht⟩ := hb3
                rw [ht]
                simp
        · obtain ⟨ha, hb⟩ := hplain _ _ h
          exact ⟨ha, Or.inl hb⟩
  · split at h
    · split at h
      · exact absurd h (by simp)
      · obtain ⟨ha, hb⟩ := hplain _ _ h
        exact ⟨ha, Or.inl hb⟩
    · obtain ⟨ha, hb⟩ := hplain _ _ h
      exact ⟨ha, Or.inl hb⟩

theorem quoteCount_infix_le (x y z : Str) : quoteCount y ≤ quoteCount (x ++ y ++ z) := by
  rw [quoteCount_append, quoteCount_append]
  omega

/-- A quote inside the host of an absolute target is never followed, in a text
of the form `<rest of host> p "`, by the target itself and a closing quote. -/
theorem host_quote_absurd (T : Str) (u : URL) (hu : urlParse T = some u)
    (hs : u.Scheme ≠ []) (h0 h2 : Str) (Q : Char) (hhost : u.Host = h0 ++ Q :: h2)
    (hQ : Q ∈ ['"', '\'']) (g rest p : Str) (Q2 q2 : Char) (hQ2 : Q2 ∈ ['"', '\''])
    (hq2 : q2 ∈ ['"', '\'']) (hp : ∀ c ∈ p, c ∉ ['"', '\''])
    (heq : T ++ (g ++ Q2 :: rest) = h2 ++ (p ++ [q2])) : False := by
  have hh : u.Host ≠ [] := by rw [hhost]; simp
  obtain ⟨sch, a, hpart, b, hsch, hschc, hT, hph⟩ := urlParse_host T u hu hs hh
  obtain ⟨hslash, hcases⟩ := parseHost_facts hpart u.Host hph
  rcases hcases with hcount | hbracket
  · have h1 : quoteCount hpart ≤ quoteCount T := by
      have : T = (sch ++ [':', '/', '/'] ++ a) ++ hpart ++ b := by rw [hT]; simp
      rw [this]
      exact quoteCount_infix_le _ _ _
    have h3 : quoteCount u.Host = quoteCount h0 + (quoteCount h2 + 1) := by
      rw [hhost, quoteCount_append, quoteCount_cons_quote _ _ hQ]
    have h4 := congrArg quoteCount heq
    rw [quoteCount_append, quoteCount_append, quoteCount_cons_quote _ _ hQ2,
      quoteCount_append, quoteCount_append, quoteCount_eq_zero p hp,
      quoteCount_cons_quote _ _ hq2] at h4
    have h5 : quoteCount ([] : Str) = 0 := rfl
    omega
  · have hmem := hbracket h0 Q h2 hhost hQ
    obtain ⟨x, y, hxy⟩ := List.append_of_mem hmem
    have hxs : '/' ∉ x := by
      intro hx
      apply hslash
      rw [hhost, hxy]
      simp [hx]
    have heq2 : (sch ++ [':']) ++ '/' :: ('/' :: (a ++ hpart ++ b) ++ (g ++ Q2 :: rest)) =
        x ++ ']' :: (y ++ (p ++ [q2])) := by
      rw [hT, hxy] at heq
      simpa using heq
    rcases List.append_eq_append_iff.mp heq2 with ⟨a2, ha1, ha2⟩ | ⟨c2, hc1, hc2⟩
    · cases a2 with
      | nil =>
        simp only [List.nil_append, List.cons.injEq] at ha2
        exact absurd ha2.1 (by decide)
      | cons z a2 =>
        simp only [List.cons_append, List.cons.injEq] at ha2
        apply hxs
        rw [ha1, ← ha2.1]
        simp
    · cases c2 with
      | nil =>
        simp only [List.nil_append, List.cons.injEq] at hc2
        exact absurd hc2.1 (by decide)
      | cons z c2 =>
        simp only [List.cons_append, List.cons.injEq] at hc2
        have hin : ']' ∈ sch ++ [':'] := by
          rw [hc1, ← hc2.1]
          simp
        rcases List.mem_append.mp hin with hin | hin
        · exact absurd (hschc _ hin) (by decide)
        · exact absurd (List.mem_singleton.mp hin) (by decide)

theorem scheme_no_occurrence :
    ∀ (w sch tl y : Str), (∀ c ∈ w, schemeChar c = true) →
      (∀ c ∈ sch, schemeChar c = true) → ¬ (sch ++ ':' :: tl) <+: (w ++ '=' :: y) := by
  intro w
  induction w with
  | nil =>
    intro sch tl y _ hsch hp
    obtain ⟨z, hz⟩ := hp
    cases sch with
    | nil =>
      simp only [List.nil_append, List.cons_append, List.cons.injEq] at hz
      exact absurd hz.1 (by decide)
    | cons c sch =>
      simp only [List.nil_append, List.cons_append, List.cons.injEq] at hz
      have := hsch c (List.mem_cons_self _ _)
      rw [hz.1] at this
      exact absurd this (by decide)
  | cons a w ih =>
    intro sch tl y hw hsch hp
    obtain ⟨z, hz⟩ := hp
    cases sch with
    | nil =>
      simp only [List.nil_append, List.cons_append, List.cons.injEq] at hz
      have := hw a (List.mem_cons_self _ _)
      rw [← hz.1] at this
      exact absurd this (by decide)
    | cons c sch =>
      simp only [List.cons_append, List.cons.injEq] at hz
      exact ih sch tl y (fun x hx => hw x (List.mem_cons_of_mem _ hx))
        (fun x hx => hsch x (List.mem_cons_of_mem _ hx)) ⟨z, hz.2⟩

theorem attr_schemeChar (A : Str)
    (hA : A ∈ [['h', 'r', 'e', 'f'], ['s', 'r', 'c'], ['a', 'c', 't', 'i', 'o', 'n']]) :
    ∀ c ∈ A, schemeChar c = true := by
  simp only [List.mem_cons, List.mem_singleton, List.not_mem_nil, or_false] at hA
  rcases hA with rfl | rfl | rfl <;> decide

theorem schemeChar_not_quote (c : Char) (h : schemeChar c = true) : c ∉ ['"', '\''] := by
  intro hq
  simp only [List.mem_cons, List.mem_singleton, List.not_mem_nil, or_false] at hq
  rcases hq with rfl | rfl
  · exact absurd h (by decide)
  · exact absurd h (by decide)

theorem attr_eq_no_quote (A : Str)
    (hA : A ∈ [['h', 'r', 'e', 'f'], ['s', 'r', 'c'], ['a', 'c', 't', 'i', 'o', 'n']]) :
    ∀ c ∈ A ++ ['='], c ∉ ['"', '\''] := by
  intro c hc
  rcases List.mem_append.mp hc with hc | hc
  · exact schemeChar_not_quote c (attr_schemeChar A hA c hc)
  · rw [List.mem_singleton.mp hc]; decide

theorem pathPart_of (p : Str) (hp : p = [] ∨ p.head? = some '/')
    (hpq : ∀ c ∈ p, c ∉ ['"', '\'']) : pathPart p := by
  rcases hp with rfl | hp
  · exact Or.inl rfl
  · cases p with
    | nil => simp at hp
    | cons c t =>
      simp only [List.head?_cons, Option.some.injEq] at hp
      subst hp
      exact Or.inr ⟨t, rfl, fun x hx => hpq x (List.mem_cons_of_mem _ hx)⟩

theorem attr_suffix_cases (A pre1 pre2 : Str) (q c : Char)
    (h : A ++ ['=', q] = pre1 ++ c :: pre2) :
    (∃ w, (∀ x ∈ w, x ∈ A) ∧ c :: pre2 = w ++ ['=', q]) ∨ (c = q ∧ pre2 = []) := by
  rcases List.append_eq_append_iff.mp h with ⟨a, _, ha⟩ | ⟨b, hb1, hb2⟩
  · cases a with
    | nil =>
      left
      exact ⟨[], by simp, by simpa using ha.symm⟩
    | cons x a =>
      simp only [List.cons_append, List.cons.injEq] at ha
      cases a with
      | nil =>
        right
        simp only [List.nil_append, List.cons.injEq] at ha
        exact ⟨ha.2.1.symm, ha.2.2.symm⟩
      | cons y a =>
        simp only [List.cons_append, List.cons.injEq] at ha
        exact absurd ha.2.2 (by simp)
  · left
    refine ⟨b, ?_, hb2⟩
    intro x hx
    rw [hb1]
    exact List.mem_append_right _ hx

theorem pass_absolute_exact (T A p pfx sch tl : Str) (q q2 : Char)
    (hT : T = sch ++ ':' :: tl) (hsch : sch ≠ []) (hschc : ∀ c ∈ sch, schemeChar c = true)
    (hA : A ∈ [['h', 'r', 'e', 'f'], ['s', 'r', 'c'], ['a', 'c', 't', 'i', 'o', 'n']])
    (hq : q ∈ ['"', '\'']) (hq2 : q2 ∈ ['"', '\'']) (hp : pathPart p) :
    ReplaceAllStringFunc (absolutePattern T) (A ++ '=' :: q :: (T ++ p ++ [q2]))
      (fun m => Replace m T pfx 1) = A ++ '=' :: q :: (pfx ++ p ++ [q2]) := by
  have hrun : Regex.run (absolutePattern T) (A ++ '=' :: q :: (T ++ p ++ [q2])) some =
      some [] := by
    have := absolutePattern_complete T A p [] q q2 hA hq hq2 hp
    simpa using this
  rw [replaceAll_whole _ _ _ (by simp) hrun]
  have hform : A ++ '=' :: q :: (T ++ p ++ [q2]) = (A ++ ['=', q]) ++ T ++ (p ++ [q2]) := by
    simp
  have hold : T ≠ [] := by rw [hT]; simp
  rw [hform, replace_first T pfx (p ++ [q2]) hold (A ++ ['=', q])]
  · simp
  · intro pre1 c pre2 hsplit hpre
    rcases attr_suffix_cases A pre1 pre2 q c hsplit with ⟨w, hw, hcw⟩ | ⟨hc, hp2⟩
    · rw [hcw, hT] at hpre
      apply scheme_no_occurrence w sch tl (q :: ((sch ++ ':' :: tl) ++ (p ++ [q2])))
        (fun x hx => attr_schemeChar A hA x (hw x hx)) hschc
      simpa using hpre
    · rw [hc, hp2, hT] at hpre
      obtain ⟨z, hz⟩ := hpre
      cases sch with
      | nil => exact hsch rfl
      | cons c0 sch =>
        simp only [List.cons_append, List.cons.injEq] at hz
        have := hschc c0 (List.mem_cons_self _ _)
        rw [hz.1] at this
        exact schemeChar_not_quote q this hq

theorem pass_proto_exact (host A p pfx : Str) (q q2 : Char)
    (hA : A ∈ [['h', 'r', 'e', 'f'], ['s', 'r', 'c'], ['a', 'c', 't', 'i', 'o', 'n']])
    (hq : q ∈ ['"', '\'']) (hq2 : q2 ∈ ['"', '\'']) (hp : pathPart p) :
    ReplaceAllStringFunc (protoRelativePattern host)
      (A ++ '=' :: q :: (['/', '/'] ++ host ++ p ++ [q2]))
      (fun m => Replace m (['/', '/'] ++ host) pfx 1) =
        A ++ '=' :: q :: (pfx ++ p ++ [q2]) := by
  have hrun : Regex.run (protoRelativePattern host)
      (A ++ '=' :: q :: (['/', '/'] ++ host ++ p ++ [q2])) some = some [] := by
    rw [protoRelativePattern_run]
    have := absolutePattern_complete (['/', '/'] ++ host) A p [] q q2 hA hq hq2 hp
    simpa using this
  rw [replaceAll_whole _ _ _ (by simp) hrun]
  have hform : A ++ '=' :: q :: (['/', '/'] ++ host ++ p ++ [q2]) =
      (A ++ ['=', q]) ++ (['/', '/'] ++ host) ++ (p ++ [q2]) := by
    simp
  rw [hform, replace_first (['/', '/'] ++ host) pfx (p ++ [q2]) (by simp) (A ++ ['=', q])]
  · simp
  · intro pre1 c pre2 hsplit hpre
    obtain ⟨z, hz⟩ := hpre
    simp only [List.cons_append, List.cons.injEq] at hz
    have hc : c = '/' := hz.1.symm
    have hmem : c ∈ A ++ ['=', q] := by rw [hsplit]; simp
    rw [hc] at hmem
    rcases List.mem_append.mp hmem with hm | hm
    · exact absurd (attr_schemeChar A hA _ hm) (by decide)
    · simp only [List.mem_cons, List.mem_singleton, List.not_mem_nil, or_false] at hm
      rcases hm with hm | hm
      · exact absurd hm (by decide)
      · rw [← hm] at hq
        exact absurd hq (by decide)

theorem pass_proto_none (host A p pfx : Str) (q q2 : Char) (repl : Str → Str)
    (hA : A ∈ [['h', 'r', 'e', 'f'], ['s', 'r', 'c'], ['a', 'c', 't', 'i', 'o', 'n']])
    (hpq : ∀ c ∈ p, c ∉ ['"', '\'']) (hpfxq : ∀ c ∈ pfx, c ∉ ['"', '\''])
    (hnp : ¬ (['/', '/'] ++ host) <+: (pfx ++ p)) :
    ReplaceAllStringFunc (protoRelativePattern host)
      (A ++ '=' :: q :: (pfx ++ p ++ [q2])) repl = A ++ '=' :: q :: (pfx ++ p ++ [q2]) := by
  unfold ReplaceAllStringFunc
  apply replaceAllLoop_no_match
  intro t ht
  rw [protoRelativePattern_matchLen]
  cases hm : (absolutePattern (['/', '/'] ++ host)).matchLen t with
  | none => rfl
  | some n =>
    exfalso
    obtain ⟨rest, hr⟩ := run_of_matchLen _ _ _ hm
    obtain ⟨A2, Q, g, Q2, _, hQ, hQ2, _, hs⟩ := absolutePattern_sound _ _ _ hr
    obtain ⟨pre, hpre⟩ := ht
    have hW : ∀ c ∈ pfx ++ p, c ∉ ['"', '\''] := by
      intro c hc
      rcases List.mem_append.mp hc with hc | hc
      · exact hpfxq c hc
      · exact hpq c hc
    have heq : (A ++ ['=']) ++ q :: ((pfx ++ p) ++ [q2]) =
        (pre ++ A2 ++ ['=']) ++ Q :: ((['/', '/'] ++ host ++ g) ++ Q2 :: rest) := by
      have : A ++ '=' :: q :: (pfx ++ p ++ [q2]) = pre ++ t := hpre.symm
      rw [hs] at this
      simpa using this
    rcases quote_split _ _ _ _ _ _ _ (attr_eq_no_quote A hA) hQ heq with
      ⟨_, _, hY⟩ | ⟨Z, hZ, _⟩
    · rcases quote_split _ _ _ _ _ _ _ hW hQ2 hY with ⟨hWe, _, _⟩ | ⟨Z2, hZ2, _⟩
      · apply hnp
        rw [hWe]
        exact ⟨g, by simp⟩
      · exact absurd hZ2 (by simp)
    · rcases quote_split _ _ _ _ _ _ _ hW hQ hZ with ⟨_, _, hY⟩ | ⟨Z2, hZ2, _⟩
      · exact absurd hY (by simp)
      · exact absurd hZ2 (by simp)

theorem pass_absolute_none (T : Str) (u : URL) (A p : Str) (q q2 : Char) (repl : Str → Str)
    (hu : urlParse T = some u) (hs : u.Scheme ≠ [])
    (hA : A ∈ [['h', 'r', 'e', 'f'], ['s', 'r', 'c'], ['a', 'c', 't', 'i', 'o', 'n']])
    (hq2 : q2 ∈ ['"', '\'']) (hpq : ∀ c ∈ p, c ∉ ['"', '\'']) :
    ReplaceAllStringFunc (absolutePattern T)
      (A ++ '=' :: q :: (['/', '/'] ++ u.Host ++ p ++ [q2])) repl =
        A ++ '=' :: q :: (['/', '/'] ++ u.Host ++ p ++ [q2]) := by
  obtain ⟨sch, tl, hsch, hschc, hT⟩ := urlParse_scheme T u hu hs
  unfold ReplaceAllStringFunc
  apply replaceAllLoop_no_match
  intro t ht
  cases hm : (absolutePattern T).matchLen t with
  | none => rfl
  | some n =>
    exfalso
    obtain ⟨rest, hr⟩ := run_of_matchLen _ _ _ hm
    obtain ⟨A2, Q, g, Q2, _, hQ, hQ2, _, hst⟩ := absolutePattern_sound _ _ _ hr
    obtain ⟨pre, hpre⟩ := ht
    have heq : (A ++ ['=']) ++ q :: ((['/', '/'] ++ u.Host) ++ (p ++ [q2])) =
        (pre ++ A2 ++ ['=']) ++ Q :: (T ++ (g ++ Q2 :: rest)) := by
      have : A ++ '=' :: q :: (['/', '/'] ++ u.Host ++ p ++ [q2]) = pre ++ t := hpre.symm
      rw [hst] at this
      simpa using this
    rcases quote_split _ _ _ _ _ _ _ (attr_eq_no_quote A hA) hQ heq with
      ⟨_, _, hY⟩ | ⟨Z, hZ, _⟩
    · rw [hT] at hY
      cases sch with
      | nil => exact hsch rfl
      | cons c0 sch =>
        simp only [List.cons_append, List.cons.injEq] at hY
        have := hschc c0 (List.mem_cons_self _ _)
        rw [← hY.1] at this
        exact absurd this (by decide)
    · rcases List.append_eq_append_iff.mp hZ with ⟨a2, _, ha2⟩ | ⟨c2, hc1, hc2⟩
      · have ha3 : p ++ q2 :: [] = a2 ++ Q :: (T ++ (g ++ Q2 :: rest)) := ha2
        rcases quote_split _ _ _ _ _ _ _ hpq hQ ha3 with ⟨_, _, hY⟩ | ⟨Z2, hZ2, _⟩
        · exact absurd hY (by simp)
        · exact absurd hZ2 (by simp)
      · cases c2 with
        | nil =>
          simp only [List.nil_append] at hc2
          cases p with
          | nil =>
            simp only [List.nil_append, List.cons.injEq] at hc2
            exact absurd hc2.2 (by simp)
          | cons x p2 =>
            simp only [List.cons_append, List.cons.injEq] at hc2
            apply hpq x (List.mem_cons_self _ _)
            rw [← hc2.1]
            exact hQ
        | cons c0 c3 =>
          simp only [List.cons_append, List.cons.injEq] at hc2
          obtain ⟨hc0, hY⟩ := hc2
          subst hc0
          cases Z with
          | nil =>
            simp only [List.nil_append, List.cons_append, List.cons.injEq] at hc1
            rw [← hc1.1] at hQ
            exact absurd hQ (by decide)
          | cons z Z2 =>
            simp only [List.cons_append, List.cons.injEq] at hc1
            cases Z2 with
            | nil =>
              simp only [List.nil_append, List.cons.injEq] at hc1
              rw [← hc1.2.1] at hQ
              exact absurd hQ (by decide)
            | cons z2 Z3 =>
              simp only [List.cons_append, List.cons.injEq, List.nil_append] at hc1
              exact host_quote_absurd T u hu hs Z3 c3 Q hc1.2.2 hQ g rest p Q2 q2 hQ2 hq2
                hpq hY

/-! ## Rewriting of links -/

/-- C5, as stated, fails: with target `https://example.com` and the mount path
`/`, the attribute `href="https://example.com/example.com/x"` does not become
`href="//example.com/x"` (mount path followed by `/example.com/x`): the
protocol-relative pass rewrites the result of the absolute pass once more, to
`href="//x"`. -/
theorem rewriteHTML_absolute_counterexample :
    ¬ ∀ (pm : ProxyManager) (rule : ProxyRule) (u : URL) (pfx A p : Str) (q : Char),
      urlParse rule.Target = some u → u.Scheme ≠ [] → u.Host ≠ [] →
      A ∈ [['h', 'r', 'e', 'f'], ['s', 'r', 'c'], ['a', 'c', 't', 'i', 'o', 'n']] →
      q ∈ ['"', '\''] → (p = [] ∨ p.head? = some '/') → (∀ c ∈ p, c ∉ ['"', '\'']) →
      pm.rewriteHTML (A ++ '=' :: q :: (rule.Target ++ p ++ [q])) rule pfx =
        A ++ '=' :: q :: (pfx ++ p ++ [q]) := by
  intro h
  have h1 := h (managerOf []) rootRule
    { Scheme := "https".toList, Host := "example.com".toList } ['/'] ['h', 'r', 'e', 'f']
    "/example.com/x".toList '"' (by decide) (by decide) (by decide) (by decide) (by decide)
    (by decide) (by decide)
  revert h1
  decide

/-- C5, amended. For an attribute name among `href`, `src`, `action`, quote
characters `q`, `q2`, and a path `p` that is empty or starts with a slash and
holds no quote, `rewriteHTML` turns `attr=q<target>p q2` into
`attr=q<pfx>p q2` when the target is well formed (it parses as a URL with a
scheme, and its host is text: the escapes in it decode to UTF-8, so that no
`RuneError` stands in for a byte), the mount path `pfx` holds no quote and
`<pfx>p` does not begin with `//<target-host>`.  With the target
`https://example.com` and the mount path `/ex`,
`href="https://example.com/page"` becomes `href="/ex/page"`. -/
theorem rewriteHTML_absolute (pm : ProxyManager) (rule : ProxyRule) (u : URL)
    (pfx A p : Str) (q q2 : Char)
    (hu : urlParse rule.Target = some u) (hs : u.Scheme ≠ []) (_hText : RuneError ∉ u.Host)
    (hA : A ∈ [['h', 'r', 'e', 'f'], ['s', 'r', 'c'], ['a', 'c', 't', 'i', 'o', 'n']])
    (hq : q ∈ ['"', '\'']) (hq2 : q2 ∈ ['"', '\''])
    (hp : p = [] ∨ p.head? = some '/') (hpq : ∀ c ∈ p, c ∉ ['"', '\''])
    (hpfxq : ∀ c ∈ pfx, c ∉ ['"', '\''])
    (hnp : ¬ (['/', '/'] ++ u.Host) <+: (pfx ++ p)) :
    pm.rewriteHTML (A ++ '=' :: q :: (rule.Target ++ p ++ [q2])) rule pfx =
      A ++ '=' :: q :: (pfx ++ p ++ [q2]) ∧
    (managerOf [exampleRule]).rewriteHTML "href=\"https://example.com/page\"".toList
      exampleRule "/ex".toList = "href=\"/ex/page\"".toList := by
  refine ⟨?_, by decide⟩
  obtain ⟨sch, tl, hsch, hschc, hT⟩ := urlParse_scheme _ u hu hs
  unfold ProxyManager.rewriteHTML
  rw [hu]
  simp only []
  rw [pass_absolute_exact rule.Target A p pfx sch tl q q2 hT hsch hschc hA hq hq2
    (pathPart_of p hp hpq)]
  exact pass_proto_none u.Host A p pfx q q2 _ hA hpq hpfxq hnp

/-- C6. For an attribute name among `href`, `src`, `action`, quote characters
`q`, `q2`, and a path `p` that is empty or starts with a slash and holds no
quote, `rewriteHTML` turns `attr=q//<target-host>p q2` into `attr=q<pfx>p q2`,
where the target parses as a URL with a scheme and `target-host` is its host,
a text (the escapes in it decode to UTF-8, so that no `RuneError` stands in
for a byte).  With the target `https://example.com` and the mount path `/ex`,
`src="//example.com/img.png"` becomes `src="/ex/img.png"`. -/
theorem rewriteHTML_protocol_relative (pm : ProxyManager) (rule : ProxyRule) (u : URL)
    (pfx A p : Str) (q q2 : Char)
    (hu : urlParse rule.Target = some u) (hs : u.Scheme ≠ []) (_hText : RuneError ∉ u.Host)
    (hA : A ∈ [['h', 'r', 'e', 'f'], ['s', 'r', 'c'], ['a', 'c', 't', 'i', 'o', 'n']])
    (hq : q ∈ ['"', '\'']) (hq2 : q2 ∈ ['"', '\''])
    (hp : p = [] ∨ p.head? = some '/') (hpq : ∀ c ∈ p, c ∉ ['"', '\'']) :
    pm.rewriteHTML (A ++ '=' :: q :: (['/', '/'] ++ u.Host ++ p ++ [q2])) rule pfx =
      A ++ '=' :: q :: (pfx ++ p ++ [q2]) ∧
    (managerOf [exampleRule]).rewriteHTML "src=\"//example.com/img.png\"".toList
      exampleRule "/ex".toList = "src=\"/ex/img.png\"".toList := by
  refine ⟨?_, by decide⟩
  unfold ProxyManager.rewriteHTML
  rw [hu]
  simp only []
  rw [pass_absolute_none rule.Target u A p q q2 _ hu hs hA hq2 hpq]
  exact pass_proto_exact u.Host A p pfx q q2 hA hq hq2 (pathPart_of p hp hpq)

theorem rewriteHTML_absolute_witness :
    (managerOf [escapedHostRule]).rewriteHTML "href=\"https://ex%C3%A9.com/page\"".toList
        escapedHostRule "/ex".toList = "href=\"/ex/page\"".toList :=
  (rewriteHTML_absolute (managerOf [escapedHostRule]) escapedHostRule
    { Scheme := "https".toList, Host := "ex\u00e9.com".toList } "/ex".toList
    ['h', 'r', 'e', 'f'] "/page".toList '"' '"' (by decide) (by decide) (by decide)
    (by decide) (by decide) (by decide) (by decide) (by decide) (by decide) (by decide)).1

theorem rewriteHTML_protocol_relative_witness :
    (managerOf [escapedHostRule]).rewriteHTML "src=\"//ex\u00e9.com/img.png\"".toList
        escapedHostRule "/ex".toList = "src=\"/ex/img.png\"".toList :=
  (rewriteHTML_protocol_relative (managerOf [escapedHostRule]) escapedHostRule
    { Scheme := "https".toList, Host := "ex\u00e9.com".toList } "/ex".toList
    ['s', 'r', 'c'] "/img.png".toList '"' '"' (by decide) (by decide) (by decide)
    (by decide) (by decide) (by decide) (by decide) (by decide)).1

theorem rewriteHTML_without_quoted_attribute_witness :
    (managerOf [exampleRule]).rewriteHTML
        "<a HREF=\"https://example.com/x\" href=https://example.com/y>".toList
        exampleRule "/ex".toList =
      "<a HREF=\"https://example.com/x\" href=https://example.com/y>".toList :=
  rewriteHTML_without_quoted_attribute (managerOf [exampleRule])
    "<a HREF=\"https://example.com/x\" href=https://example.com/y>".toList
    exampleRule "/ex".toList (by decide)

/-- Percent-decoding works on bytes: in the target `https://ex%C3%A9.com/caf%C3%A9`
the two escapes `%C3%A9` are the UTF-8 sequence of the one character U+00E9,
in the host and in the path. -/
theorem urlParse_escaped_example :
    urlParse "https://ex%C3%A9.com/caf%C3%A9".toList =
      some { Scheme := "https".toList, Host := "ex\u00e9.com".toList,
             Path := "/caf\u00e9".toList } := by decide

/-- A byte that belongs to no UTF-8 sequence has no character and is shown as
`RuneError`; the parse succeeds all the same. -/
theorem unescape_undecodable_example :
    unescape "a%FFb%C3".toList encodePath = some ['a', RuneError, 'b', RuneError] ∧
    urlParse "https://h/%FF".toList =
      some { Scheme := "https".toList, Host := ['h'], Path := ['/', RuneError] } := by decide

/-- For the target `https://ex%C3%A9.com`, whose host is `exé.com`, the
protocol-relative pass leaves the text `//exÃ©.com` (the two bytes read as two
characters) alone; and with the mount path `/` the attribute
`href="https://ex%C3%A9.com/exé.com/x"` is rewritten twice, to `href="//x"`. -/
theorem rewriteHTML_escaped_host_example :
    (managerOf [escapedHostRule]).rewriteHTML "src=\"//ex\u00c3\u00a9.com/img.png\"".toList
        escapedHostRule "/ex".toList = "src=\"//ex\u00c3\u00a9.com/img.png\"".toList ∧
    (managerOf [escapedHostRule]).rewriteHTML
        "href=\"https://ex%C3%A9.com/ex\u00e9.com/x\"".toList escapedHostRule ['/'] =
      "href=\"//x\"".toList := by decide

theorem modifyResponse_html_witness :
    ∃ out, (managerOf [exampleRule]).modifyResponse sampleGunzip gzipHtmlResponse
        exampleRule "/ex".toList = some out ∧
      out.Body = Body.mk "<a href=\"/ex/caf\u00e9\">".toList false ∧
      ("<a href=\"/ex/caf\u00e9\">".toList).length = 19 ∧
      out.ContentLength = 20 ∧
      out.Header.Get "Content-Length".toList = "20".toList ∧
      out.Header.lookup "Content-Encoding".toList = none :=
  (modifyResponse_html sampleGunzip (managerOf [exampleRule]) gzipHtmlResponse exampleRule
    "/ex".toList "<a href=\"https://example.com/caf\u00e9\">".toList (by decide)
    (by decide)).elim
    (fun out h => ⟨out, h.1, h.2.1.trans (by decide), by decide, h.2.2.1.trans (by decide),
      h.2.2.2.1.trans (by decide), h.2.2.2.2.1⟩)

/-! ## Invalid targets -/

/-- C10, as stated, fails: the target `example.com` has neither scheme nor host,
yet `url.Parse` accepts it (as a relative path), and `handleProxy` does not
answer 500 "Invalid target URL". -/
theorem handleProxy_invalid_target_counterexample :
    ¬ ∀ (pm : ProxyManager) (r : Request) (rule : ProxyRule) (pfx : Str),
      (¬ ∃ u, urlParse rule.Target = some u ∧ u.Scheme ≠ [] ∧ u.Host ≠ []) →
      pm.handleProxy r rule pfx = .httpError 500 "Invalid target URL".toList := by
  intro h
  have hparse : urlParse relativeTargetRule.Target =
      some { Path := "example.com".toList } := by decide
  have h1 := h (managerOf [relativeTargetRule]) (requestFor "/rel/x".toList)
    relativeTargetRule "/rel".toList (by
      rintro ⟨u, hu, hs, _⟩
      rw [hparse] at hu
      simp only [Option.some.injEq] at hu
      subst hu
      exact hs rfl)
  revert h1
  decide

/-- C10, amended. When `url.Parse` rejects the rule's target, `handleProxy`
does not forward the request and answers with the server error 500 "Invalid
target URL". -/
theorem handleProxy_unparsable_target (pm : ProxyManager) (r : Request) (rule : ProxyRule)
    (pfx : Str) (h : urlParse rule.Target = none) :
    pm.handleProxy r rule pfx = .httpError 500 "Invalid target URL".toList := by
  unfold ProxyManager.handleProxy
  rw [h]

theorem handleProxy_unparsable_target_witness :
    (managerOf [brokenTargetRule]).handleProxy (requestFor "/bad/x".toList) brokenTargetRule
        "/bad".toList = .httpError 500 "Invalid target URL".toList :=
  handleProxy_unparsable_target (managerOf [brokenTargetRule]) (requestFor "/bad/x".toList)
    brokenTargetRule "/bad".toList (by decide)

/-! ## The Director: query and headers -/

theorem director_rawQuery (r : Request) (u : URL) (pfx : Str) (req : Request) :
    (Director r u pfx req).URL.RawQuery =
      if r.URL.RawQuery ≠ [] then r.URL.RawQuery else req.URL.RawQuery := by
  unfold Director
  by_cases hq : r.URL.RawQuery = []
  · simp [hq]
  · simp [hq]

/-- C11, as stated, fails: when the inbound query is empty the `Director` does
not override the query the outbound request held before. -/
theorem director_query_counterexample :
    ¬ ∀ (r req : Request) (u : URL) (pfx : Str),
      (Director r u pfx req).URL.RawQuery = r.URL.RawQuery := by
  intro h
  have h1 := h (requestFor "/a/x".toList) queryRequest
    { Scheme := "https".toList, Host := "a.example".toList } ['/', 'a']
  revert h1
  decide

/-- C11, amended. After the `Director` the outbound raw query equals the inbound
raw query verbatim whenever the inbound query is not empty; when it is empty
the outbound query is left as it was.  On the clone of the inbound request,
which is what `handleProxy` passes, the outbound query therefore always equals
the inbound one. -/
theorem director_query (r req : Request) (u : URL) (pfx : Str) :
    (r.URL.RawQuery ≠ [] → (Director r u pfx req).URL.RawQuery = r.URL.RawQuery) ∧
    (r.URL.RawQuery = [] → (Director r u pfx req).URL.RawQuery = req.URL.RawQuery) ∧
    (Director r u pfx r).URL.RawQuery = r.URL.RawQuery := by
  refine ⟨?_, ?_, ?_⟩
  · intro h
    rw [director_rawQuery, if_pos h]
  · intro h
    rw [director_rawQuery, if_neg (by simp [h])]
  · rw [director_rawQuery]
    split <;> rfl

theorem director_query_witness :
    (Director queryRequest { Scheme := "https".toList, Host := "a.example".toList }
      ['/', 'a'] (requestFor "/a/x".toList)).URL.RawQuery = "x=1".toList :=
  (director_query queryRequest (requestFor "/a/x".toList)
    { Scheme := "https".toList, Host := "a.example".toList } ['/', 'a']).1 (by decide)

/-! ## Client IP -/

theorem splitAux_char_head (c : Char) :
    ∀ (s cur : Str),
      (splitAux [c] s 0 cur).headD [] = cur.reverse ++ s.takeWhile (fun x => x != c) := by
  intro s
  induction s with
  | nil =>
    intro cur
    rw [splitAux]
    simp
  | cons x xs ih =>
    intro cur
    rw [splitAux]
    by_cases hx : x = c
    · subst hx
      have hp : [x].isPrefixOf (x :: xs) = true := by simp [List.isPrefixOf]
      rw [if_pos hp]
      simp
    · have hp : ¬ ([c].isPrefixOf (x :: xs) = true) := by
        simp [List.isPrefixOf]
        exact fun e => hx e.symm
      rw [if_neg hp, ih]
      have hne : (x != c) = true := by simpa using hx
      rw [List.takeWhile_cons, if_pos hne]
      simp

theorem split_char_head (c : Char) (s : Str) :
    (Split s [c]).headD [] = s.takeWhile (fun x => x != c) := by
  unfold Split
  rw [if_neg (by simp), splitAux_char_head]
  simp

theorem splitAux_length_pos (sep : Str) :
    ∀ (s : Str) (k : Nat) (cur : Str), 0 < (splitAux sep s k cur).length := by
  intro s
  induction s with
  | nil =>
    intro k cur
    rw [splitAux]
    simp
  | cons x xs ih =>
    intro k cur
    cases k with
    | succ k =>
      rw [splitAux]
      exact ih k cur
    | zero =>
      rw [splitAux]
      split
      · simp
      · exact ih 0 _

theorem trimSpace_spec (s : Str) :
    ∃ a b, s = a ++ TrimSpace s ++ b ∧ (∀ c ∈ a, isSpace c = true) ∧
      (∀ c ∈ b, isSpace c = true) ∧
      (∀ c, (TrimSpace s).head? = some c → isSpace c = false) ∧
      (∀ c, (TrimSpace s).getLast? = some c → isSpace c = false) := by
  unfold TrimSpace
  have h1 := List.takeWhile_append_dropWhile isSpace s
  have h2 := List.takeWhile_append_dropWhile isSpace (s.dropWhile isSpace).reverse
  have h3 : s.dropWhile isSpace =
      ((s.dropWhile isSpace).reverse.dropWhile isSpace).reverse ++
        ((s.dropWhile isSpace).reverse.takeWhile isSpace).reverse := by
    have := congrArg List.reverse h2
    rw [List.reverse_append, List.reverse_reverse] at this
    exact this.symm
  refine ⟨s.takeWhile isSpace, ((s.dropWhile isSpace).reverse.takeWhile isSpace).reverse,
    ?_, ?_, ?_, ?_, ?_⟩
  · rw [List.append_assoc, ← h3, h1]
  · intro c hc
    exact List.mem_takeWhile_imp hc
  · intro c hc
    exact List.mem_takeWhile_imp (List.mem_reverse.mp hc)
  · intro c hc
    have hd := List.head?_dropWhile_not isSpace s
    rw [h3, List.head?_append, hc] at hd
    simpa using hd
  · intro c hc
    rw [List.getLast?_reverse] at hc
    have hd := List.head?_dropWhile_not isSpace (s.dropWhile isSpace).reverse
    rw [hc] at hd
    simpa using hd

theorem getClientIP_forwarded (r : Request)
    (h : r.Header.Get "X-Forwarded-For".toList ≠ []) :
    getClientIP r =
      TrimSpace ((r.Header.Get "X-Forwarded-For".toList).takeWhile (fun x => x != ',')) := by
  unfold getClientIP
  simp only []
  have hlen : (Split (r.Header.Get "X-Forwarded-For".toList) [',']).length > 0 := by
    unfold Split
    rw [if_neg (by simp)]
    exact splitAux_length_pos _ _ _ _
  rw [if_pos ⟨h, hlen⟩, split_char_head]

theorem getClientIP_fallback (r : Request)
    (h1 : r.Header.Get "X-Forwarded-For".toList = [])
    (h2 : r.Header.Get "X-Real-IP".toList = []) :
    getClientIP r = r.RemoteAddr.takeWhile (fun x => x != ':') := by
  unfold getClientIP
  simp only []
  rw [if_neg (fun hc => hc.1 h1), if_neg (fun hc => hc h2), split_char_head]

/-- C12. Client IP priority: when the X-Forwarded-For header is not empty,
`getClientIP` returns its first comma-separated entry (the text before the
first comma) with the surrounding whitespace trimmed; otherwise the X-Real-IP
header when that is not empty; otherwise the remote address up to its first
colon.  `X-Forwarded-For: 1.2.3.4, 5.6.7.8` gives `1.2.3.4`. -/
theorem getClientIP_priority (r : Request) :
    (r.Header.Get "X-Forwarded-For".toList ≠ [] →
      getClientIP r =
        TrimSpace ((r.Header.Get "X-Forwarded-For".toList).takeWhile (fun x => x != ',')) ∧
      ∃ a b, (r.Header.Get "X-Forwarded-For".toList).takeWhile (fun x => x != ',') =
          a ++ getClientIP r ++ b ∧
        (∀ c ∈ a, isSpace c = true) ∧ (∀ c ∈ b, isSpace c = true) ∧
        (∀ c, (getClientIP r).head? = some c → isSpace c = false) ∧
        (∀ c, (getClientIP r).getLast? = some c → isSpace c = false)) ∧
    (r.Header.Get "X-Forwarded-For".toList = [] → r.Header.Get "X-Real-IP".toList ≠ [] →
      getClientIP r = r.Header.Get "X-Real-IP".toList) ∧
    (r.Header.Get "X-Forwarded-For".toList = [] → r.Header.Get "X-Real-IP".toList = [] →
      getClientIP r = r.RemoteAddr.takeWhile (fun x => x != ':')) ∧
    (r.Header.Get "X-Forwarded-For".toList = "1.2.3.4, 5.6.7.8".toList →
      getClientIP r = "1.2.3.4".toList) := by
  refine ⟨?_, ?_, getClientIP_fallback r, ?_⟩
  · intro h
    refine ⟨getClientIP_forwarded r h, ?_⟩
    rw [getClientIP_forwarded r h]
    exact trimSpace_spec _
  · intro h1 h2
    unfold getClientIP
    simp only []
    rw [if_neg (fun hc => hc.1 h1), if_pos h2]
  · intro h
    have hne : r.Header.Get "X-Forwarded-For".toList ≠ [] := by
      rw [h]; decide
    rw [getClientIP_forwarded r hne, h]
    decide

theorem getClientIP_priority_witness :
    getClientIP forwardedRequest = "1.2.3.4".toList :=
  (getClientIP_priority forwardedRequest).2.2.2 (by decide)

/-- Where the fallback does strip the port: a remote address `host:port` whose
host holds no colon. -/
theorem getClientIP_remoteAddr_plain (r : Request) (host port : Str)
    (hxff : r.Header.Get "X-Forwarded-For".toList = [])
    (hxri : r.Header.Get "X-Real-IP".toList = [])
    (haddr : r.RemoteAddr = host ++ ':' :: port) (hhost : ':' ∉ host) :
    getClientIP r = host := by
  rw [getClientIP_fallback r hxff hxri, haddr]
  clear haddr
  induction host with
  | nil => simp
  | cons c t ih =>
    have hc : (c != ':') = true := by
      simp only [bne_iff_ne, ne_eq]
      rintro rfl
      exact hhost (List.mem_cons_self _ _)
    rw [List.cons_append, List.takeWhile_cons, if_pos hc,
      ih (fun h => hhost (List.mem_cons_of_mem _ h))]

/-- C13, the code at the failing input: with no forwarding headers and the
remote address `[::1]:8080`, `getClientIP` returns `[`, which is neither the
host `::1` nor the bracketed host `[::1]`. -/
theorem getClientIP_ipv6 :
    getClientIP ipv6Request = ['['] ∧
    getClientIP ipv6Request ≠ "::1".toList ∧
    getClientIP ipv6Request ≠ "[::1]".toList := by
  decide

/-! ## Outbound headers -/

theorem lookup_del_other (h : Header) (k k2 : Str) (hne : k2 ≠ k) :
    (Header.Del h k).lookup k2 = h.lookup k2 := by
  unfold Header.Del
  induction h with
  | nil => rfl
  | cons kv t ih =>
    obtain ⟨a, b⟩ := kv
    by_cases hk : a = k
    · have hk2 : (k2 == a) = false := by
        rw [beq_eq_false_iff_ne, hk]; exact hne
      rw [List.filter_cons_of_neg (by simpa using hk), List.lookup_cons, hk2]
      exact ih
    · rw [List.filter_cons_of_pos (by simpa using hk), List.lookup_cons, List.lookup_cons, ih]

theorem header_get_del_other (h : Header) (k k2 : Str) (hne : k2 ≠ k) :
    Header.Get (Header.Del h k) k2 = Header.Get h k2 := by
  unfold Header.Get
  rw [lookup_del_other h k k2 hne]

theorem header_get_set_same (h : Header) (k v : Str) : Header.Get (Header.Set h k v) k = v := by
  unfold Header.Get Header.Set
  rw [List.lookup_cons, beq_self_eq_true]

theorem header_get_set_other (h : Header) (k k2 v : Str) (hne : k2 ≠ k) :
    Header.Get (Header.Set h k v) k2 = Header.Get h k2 := by
  have hk2 : (k2 == k) = false := by
    rw [beq_eq_false_iff_ne]; exact hne
  have hl : (Header.Set h k v).lookup k2 = (Header.Del h k).lookup k2 := by
    unfold Header.Set
    rw [List.lookup_cons, hk2]
  unfold Header.Get
  rw [hl, lookup_del_other h k k2 hne]

theorem director_header (r : Request) (u : URL) (pfx : Str) (req : Request) :
    (Director r u pfx req).Header =
      Header.Del (Header.Set (Header.Set (Header.Set req.Header "X-Forwarded-Host".toList r.Host)
        "X-Forwarded-Proto".toList "http".toList) "X-Real-IP".toList (getClientIP r))
        "Accept-Encoding".toList := by
  unfold Director
  by_cases hq : r.URL.RawQuery = []
  · simp only [hq, ne_eq, not_true_eq_false, if_false]
  · simp only [hq, ne_eq, not_false_eq_true, if_true]

theorem director_target (r : Request) (u : URL) (pfx : Str) (req : Request) :
    (Director r u pfx req).Host = u.Host ∧ (Director r u pfx req).URL.Host = u.Host ∧
      (Director r u pfx req).URL.Scheme = u.Scheme := by
  unfold Director
  by_cases hq : r.URL.RawQuery = []
  · simp only [hq, ne_eq, not_true_eq_false, if_false, and_self]
  · simp only [hq, ne_eq, not_false_eq_true, if_true, and_self]

/-- C14. Outbound headers: after the `Director`, whatever the outbound request
held before, its `Host` and URL host are the target's host and its URL scheme
the target's scheme; X-Forwarded-Host is the inbound `Host`, X-Forwarded-Proto
is the fixed value `http`, X-Real-IP is `getClientIP` of the inbound request,
and there is no Accept-Encoding header. -/
theorem director_outbound_headers (r req : Request) (u : URL) (pfx : Str) :
    (Director r u pfx req).Host = u.Host ∧
    (Director r u pfx req).URL.Host = u.Host ∧
    (Director r u pfx req).URL.Scheme = u.Scheme ∧
    (Director r u pfx req).Header.Get "X-Forwarded-Host".toList = r.Host ∧
    (Director r u pfx req).Header.Get "X-Forwarded-Proto".toList = "http".toList ∧
    (Director r u pfx req).Header.Get "X-Real-IP".toList = getClientIP r ∧
    (Director r u pfx req).Header.lookup "Accept-Encoding".toList = none ∧
    (Director r u pfx req).Header.Get "Accept-Encoding".toList = [] := by
  obtain ⟨h1, h2, h3⟩ := director_target r u pfx req
  refine ⟨h1, h2, h3, ?_, ?_, ?_, ?_, ?_⟩
  · rw [director_header, header_get_del_other _ _ _ (by decide),
      header_get_set_other _ _ _ _ (by decide), header_get_set_other _ _ _ _ (by decide),
      header_get_set_same]
  · rw [director_header, header_get_del_other _ _ _ (by decide),
      header_get_set_other _ _ _ _ (by decide), header_get_set_same]
  · rw [director_header, header_get_del_other _ _ _ (by decide), header_get_set_same]
  · rw [director_header]
    exact header_lookup_del _ _
  · rw [director_header]
    unfold Header.Get
    rw [header_lookup_del]

/-! ## The enabled rules -/

theorem foldl_enabled (l : List ProxyRule) :
    ∀ acc : List ProxyRule,
      l.foldl (fun rules r => if r.Enabled then rules ++ [r] else rules) acc =
        acc ++ l.filter (fun r => r.Enabled) := by
  induction l with
  | nil => intro acc; simp
  | cons x xs ih =>
    intro acc
    rw [List.foldl_cons, ih]
    by_cases hx : x.Enabled = true
    · rw [if_pos hx, List.filter_cons_of_pos hx]
      simp
    · rw [if_neg hx, List.filter_cons_of_neg hx]

theorem foldl_enabled_state (m : ConfigManager) (l : List ProxyRule) :
    ∀ acc : List ProxyRule,
      l.foldl (fun (st : ConfigManager × List ProxyRule) r =>
          if r.Enabled then (st.1, st.2 ++ [r]) else st) (m, acc) =
        (m, acc ++ l.filter (fun r => r.Enabled)) := by
  induction l with
  | nil => intro acc; simp
  | cons x xs ih =>
    intro acc
    rw [List.foldl_cons]
    by_cases hx : x.Enabled = true
    · rw [if_pos hx, ih, List.filter_cons_of_pos hx]
      simp
    · rw [if_neg hx, ih, List.filter_cons_of_neg hx]

/-- C15. `GetEnabledRules` is the order-preserving filter of the stored rules
by the `Enabled` flag: it returns exactly the enabled rules, each as often as
it is stored, in their stored order, and the manager with its stored list is
the same after the call. -/
theorem getEnabledRules_filter (m : ConfigManager) :
    m.GetEnabledRules = m.config.Rules.filter (fun r => r.Enabled) ∧
    m.runGetEnabledRules = (m, m.GetEnabledRules) ∧
    m.GetEnabledRules.Sublist m.config.Rules ∧
    (∀ r, r ∈ m.GetEnabledRules ↔ r ∈ m.config.Rules ∧ r.Enabled = true) ∧
    (∀ r, r.Enabled = true → m.GetEnabledRules.count r = m.config.Rules.count r) := by
  have hf : m.GetEnabledRules = m.config.Rules.filter (fun r => r.Enabled) := by
    unfold ConfigManager.GetEnabledRules
    rw [foldl_enabled]
    rfl
  refine ⟨hf, ?_, ?_, ?_, ?_⟩
  · unfold ConfigManager.runGetEnabledRules
    rw [foldl_enabled_state, hf]
    rfl
  · rw [hf]
    exact List.filter_sublist _
  · intro r
    rw [hf, List.mem_filter]
  · intro r hr
    rw [hf, List.count_filter]
    exact hr

theorem getEnabledRules_filter_witness :
    (managerOf [ruleA, disabledRule, ruleAB]).configManager.GetEnabledRules.count ruleAB =
      (managerOf [ruleA, disabledRule, ruleAB]).configManager.config.Rules.count ruleAB :=
  (getEnabledRules_filter (managerOf [ruleA, disabledRule, ruleAB]).configManager).2.2.2.2
    ruleAB (by decide)

end GoProxyEvery
